import Mathlib

/-!
Shallow embedding of the coupon field recognition engine
(`coupon-training/scripts/testable_coupon_recognizer.py`,
`coupon-training/scripts/error_recovery.py`,
`coupon-training/scripts/adaptive_pattern_recognition.py`,
`coupon-training/scripts/resource_management.py`).

Python floats are modelled as rationals (ℚ): every constant in the code is a
short decimal and every operation is `+`, `*`, `/`, `min`, `max` and
comparisons, so the rational model agrees with IEEE semantics on all the
comparisons the code makes.  Python strings are modelled as Lean `String`
(lists of characters); the character classes `isdigit`, `isalpha`,
`isupper`, `isalnum`, `isspace`, `upper`, `lower` are modelled at ASCII
level (the texts the engine handles are OCR output over explicit ASCII
whitelists, plus the rupee sign which none of those classes accepts).
The external OCR engine (`pytesseract.image_to_string`) is modelled as an
oracle `ℕ → Except Unit String` giving the outcome of each successive
invocation: `.ok text` when the call returns, `.error ()` when it raises.
-/

attribute [local semireducible] Rat.add Rat.mul Rat.sub Rat.inv

deriving instance DecidableEq for Except

namespace Coupon

/-- Python `str.isspace` / the regex class `\s`, ASCII part. -/
def pyIsSpace (c : Char) : Bool :=
  c == ' ' || c == '\t' || c == '\n' || c == '\r' || c == '\x0b' || c == '\x0c'

/-- Python `c.isdigit()`, ASCII part ('0'-'9'). -/
def pyIsDigit (c : Char) : Bool := c.isDigit

/-- Python `c.isupper()`, ASCII part ('A'-'Z'). -/
def pyIsUpper (c : Char) : Bool := c.isUpper

/-- Python `c.isalpha()`, ASCII part. -/
def pyIsAlpha (c : Char) : Bool := c.isAlpha

/-- Python `c.isalnum()`, ASCII part. -/
def pyIsAlnum (c : Char) : Bool := c.isAlpha || c.isDigit

/-- Characters admitted by the regex class `[A-Z0-9]`. -/
def isUpperDigit (c : Char) : Bool := ('A' ≤ c && c ≤ 'Z') || c.isDigit

/-- Characters admitted by the regex class `[/.-]` (date separators). -/
def isDateSep (c : Char) : Bool := c == '/' || c == '.' || c == '-'

/-- Python `str.strip()`: drop leading and trailing whitespace. -/
def stripL (cs : List Char) : List Char :=
  ((cs.dropWhile pyIsSpace).reverse.dropWhile pyIsSpace).reverse

/-- Worker for `re.sub(r'\s+', ' ', ·)`: the boolean records whether the
previous character was part of a whitespace run already emitted as `' '`. -/
def collapseAux : List Char → Bool → List Char
  | [], _ => []
  | c :: cs, prevWS =>
    if pyIsSpace c then
      if prevWS then collapseAux cs true else ' ' :: collapseAux cs true
    else c :: collapseAux cs false

/-- Python `re.sub(r'\s+', ' ', text)`: each maximal whitespace run becomes
one space. -/
def collapseL (cs : List Char) : List Char := collapseAux cs false

/-- Worker for `str.split()`: `acc` holds the current word reversed. -/
def wordsAux : List Char → List Char → List (List Char)
  | [], acc => if acc.isEmpty then [] else [acc.reverse]
  | c :: cs, acc =>
    if pyIsSpace c then
      if acc.isEmpty then wordsAux cs [] else acc.reverse :: wordsAux cs []
    else wordsAux cs (c :: acc)

/-- Python `str.split()` with no argument: whitespace-separated words,
empties dropped. -/
def wordsL (cs : List Char) : List (List Char) := wordsAux cs []

/-- Python `' '.join(words)`. -/
def joinWords : List (List Char) → List Char
  | [] => []
  | [w] => w
  | w :: ws => w ++ ' ' :: joinWords ws

/-- Python word capitalization from the store branch:
`word[0].upper() + word[1:].lower() if len(word) > 1 else word.upper()`. -/
def capWordL : List Char → List Char
  | [] => []
  | [c] => [c.toUpper]
  | c :: cs => c.toUpper :: cs.map Char.toLower

/-- Case-insensitive substring test used for regexes of the shape
`(?i).*(lit).*`: whether `pat` occurs in `cs` once both are lowercased.
The test is on already-lowercased lists. -/
def containsList (pat : List Char) : List Char → Bool
  | [] => pat.isEmpty
  | c :: cs => (pat.isPrefixOf (c :: cs)) || containsList pat cs

/-- Python `re.search(r'(?i)lit', text) is not None` for a literal `lit`. -/
def containsCI (pat : String) (s : String) : Bool :=
  containsList (pat.data.map Char.toLower) (s.data.map Char.toLower)

/-- Python `re.search` for one of several case-insensitive literals, as in
`re.search(r'(?i).*(store|shop|mart|market|outlet).*', text)`. -/
def containsAnyCI (pats : List String) (s : String) : Bool :=
  pats.any (fun p => containsCI p s)

/-- Scanner for `re.search(r'.*\d+\s*%.*', text)`: somewhere a digit is
followed, after optional whitespace, by a percent sign. -/
def digitThenPercent : List Char → Bool
  | [] => false
  | c :: cs =>
    (pyIsDigit c && (cs.dropWhile pyIsSpace).headD 'x' == '%') || digitThenPercent cs

/-- Scanner for `re.search(r'.*(₹|Rs\.?)\s*\d+.*', text)` (case sensitive):
a rupee sign, or `Rs` optionally followed by one dot, then optional
whitespace, then a digit. -/
def currencyThenDigit : List Char → Bool
  | [] => false
  | '₹' :: cs => pyIsDigit ((cs.dropWhile pyIsSpace).headD 'x') || currencyThenDigit cs
  | 'R' :: 's' :: '.' :: cs =>
    pyIsDigit ((cs.dropWhile pyIsSpace).headD 'x') || currencyThenDigit ('.' :: cs)
  | 'R' :: 's' :: cs => pyIsDigit ((cs.dropWhile pyIsSpace).headD 'x') || currencyThenDigit ('s' :: cs)
  | _ :: cs => currencyThenDigit cs

/-- One step of the date regex `\d{1,2}[/.-]`: at the current position the
leading digit run must have length 1 or 2 (with backtracking, a longer run
can never be followed by a separator) and be followed by a separator.
Returns the consumed characters and the rest. -/
def dateRun (cs : List Char) : Option (List Char × List Char) :=
  let r := cs.takeWhile pyIsDigit
  let rest := cs.dropWhile pyIsDigit
  if r.length = 1 ∨ r.length = 2 then
    match rest with
    | s :: rest2 => if isDateSep s then some (r ++ [s], rest2) else none
    | [] => none
  else none

/-- Match of `\d{1,2}[/.-]\d{1,2}[/.-]\d{2,4}` anchored at the current
position, returning the matched characters (greedy, as `re` matches when
nothing follows the group). -/
def matchDateAt (cs : List Char) : Option (List Char) :=
  match dateRun cs with
  | none => none
  | some (p1, rest1) =>
    match dateRun rest1 with
    | none => none
    | some (p2, rest2) =>
      let r3 := rest2.takeWhile pyIsDigit
      if 2 ≤ r3.length then some (p1 ++ p2 ++ r3.take 4) else none

/-- Python `re.search(r'(\d{1,2}[/.-]\d{1,2}[/.-]\d{2,4})', text)`, returning
`group(1)` of the leftmost match. -/
def extractDateL : List Char → Option (List Char)
  | [] => none
  | c :: cs =>
    match matchDateAt (c :: cs) with
    | some m => some m
    | none => extractDateL cs

/-- Presence test `re.search(r'.*\d{1,2}[/.-]\d{1,2}[/.-]\d{2,4}.*', text)`. -/
def hasDateL (cs : List Char) : Bool := (extractDateL cs).isSome

/-- Python `re.sub(r'(\d)%', r'\1 %', text)`: insert a space between a digit
and an immediately following percent sign; scanning resumes after the `%`. -/
def subDigitPercent : List Char → List Char
  | [] => []
  | [c] => [c]
  | c :: d :: cs =>
    if pyIsDigit c && d == '%' then c :: ' ' :: '%' :: subDigitPercent cs
    else c :: subDigitPercent (d :: cs)

/-- Python `re.sub(r'(₹|Rs\.?)(\d)', r'\1 \2', text)`: insert a space between
a currency marker (`₹`, `Rs.` or `Rs`) and an immediately following digit;
scanning resumes after the digit. -/
def subCurrencyDigit : List Char → List Char
  | [] => []
  | '₹' :: d :: cs =>
    if pyIsDigit d then '₹' :: ' ' :: d :: subCurrencyDigit cs
    else '₹' :: subCurrencyDigit (d :: cs)
  | 'R' :: 's' :: '.' :: d :: cs =>
    if pyIsDigit d then 'R' :: 's' :: '.' :: ' ' :: d :: subCurrencyDigit cs
    else 'R' :: subCurrencyDigit ('s' :: '.' :: d :: cs)
  | 'R' :: 's' :: d :: cs =>
    if pyIsDigit d then 'R' :: 's' :: ' ' :: d :: subCurrencyDigit cs
    else 'R' :: subCurrencyDigit ('s' :: d :: cs)
  | c :: cs => c :: subCurrencyDigit cs

/-! DefaultTextPostprocessor.postprocess (testable_coupon_recognizer.py,
lines 223-286).  The `region_type : Option String` mirrors the Python
`Optional[str]` parameter compared against string literals. -/
/-- Body of the `'store'` branch on character lists. -/
def postStoreL (cs : List Char) : List Char :=
  let t := collapseL (stripL cs)
  let ws := (wordsL t).filter (fun w => !w.isEmpty)
  joinWords (ws.map capWordL)

/-- Body of the `'code'` branch on character lists:
`re.sub(r'[^A-Z0-9]', '', text.upper())`. -/
def postCodeL (cs : List Char) : List Char :=
  (cs.map Char.toUpper).filter isUpperDigit

/-- Body of the `'amount'` branch on character lists. -/
def postAmountL (cs : List Char) : List Char :=
  subCurrencyDigit (subDigitPercent (collapseL (stripL cs)))

/-- Body of the `'expiry'` branch on character lists. -/
def postExpiryL (cs : List Char) : List Char :=
  let t := collapseL (stripL cs)
  match extractDateL t with
  | some d => d
  | none => t

/-- Body of the `'description'` branch on character lists. -/
def postDescriptionL (cs : List Char) : List Char :=
  let t := collapseL (stripL cs)
  match t with
  | [] => t
  | c :: rest => c.toUpper :: rest

/-- DefaultTextPostprocessor.postprocess: clean extracted text according to
the region type; unknown region types return the text unchanged. -/
def postprocess (text : String) (region_type : Option String) : String :=
  if text = "" then ""
  else if region_type = some "store" then ⟨postStoreL text.data⟩
  else if region_type = some "code" then ⟨postCodeL text.data⟩
  else if region_type = some "amount" then ⟨postAmountL text.data⟩
  else if region_type = some "expiry" then ⟨postExpiryL text.data⟩
  else if region_type = some "description" then ⟨postDescriptionL text.data⟩
  else text

/-! DefaultConfidenceCalculator.calculate_confidence
(testable_coupon_recognizer.py, lines 291-398). -/
/-- Bonus added when a boolean content heuristic fires. -/
def bonus (b : Bool) (x : ℚ) : ℚ := if b then x else 0

/-- Store-branch bonuses of calculate_confidence. -/
def storeBonus (text : String) : ℚ :=
  bonus ((wordsL text.data).any (fun w => 1 < w.length && pyIsUpper (w.headD 'x'))) (2/10) +
  bonus (decide (text.length < 20)) (1/10) +
  bonus (decide (((text.data.filter pyIsDigit).length : ℚ) < (text.length : ℚ) / 3)) (1/10) +
  bonus (containsAnyCI ["store", "shop", "mart", "market", "outlet"] text) (1/10)

/-- Code-branch bonuses of calculate_confidence. -/
def codeBonus (text : String) : ℚ :=
  bonus (text.data.all (fun c => pyIsAlnum c || pyIsSpace c)) (2/10) +
  bonus (decide (5 ≤ (text.data.filter (fun c => c ≠ ' ')).length)) (1/10) +
  bonus (text.data.any pyIsAlpha && text.data.any pyIsDigit) (1/10) +
  bonus (decide ((text.data.filter (fun c => !pyIsAlnum c && !pyIsSpace c)).length ≤ 1)) (1/10)

/-- Amount-branch bonuses of calculate_confidence. -/
def amountBonus (text : String) : ℚ :=
  bonus (text.data.any pyIsDigit) (2/10) +
  bonus (text.data.any (fun c => c == '₹' || c == '$' || c == '%')) (2/10) +
  bonus (containsAnyCI ["off", "discount", "cashback", "save"] text) (1/10) +
  bonus (digitThenPercent text.data) (2/10) +
  bonus (currencyThenDigit text.data) (2/10)

/-- Expiry-branch bonuses of calculate_confidence. -/
def expiryBonus (text : String) : ℚ :=
  bonus (text.data.any pyIsDigit) (2/10) +
  bonus (text.data.any isDateSep) (1/10) +
  bonus (containsAnyCI ["expir", "valid", "till", "until"] text) (2/10) +
  bonus (hasDateL text.data) (3/10)

/-- Description-branch bonuses of calculate_confidence. -/
def descriptionBonus (text : String) : ℚ :=
  bonus (decide (10 < text.length)) (1/10) +
  bonus (decide (3 < (wordsL text.data).length)) (1/10) +
  bonus (text.data.any pyIsAlpha) (1/10) +
  bonus (containsAnyCI ["get", "use", "apply", "offer", "deal", "discount"] text) (1/10)

/-- DefaultConfidenceCalculator.calculate_confidence: 0 for empty text, else
a base score of 0.5 plus field-specific content bonuses, capped at 1.0. -/
def calculate_confidence (text : String) (region_type : Option String) : ℚ :=
  if text = "" then 0
  else
    let score : ℚ := 1/2 +
      (if region_type = some "store" then storeBonus text
       else if region_type = some "code" then codeBonus text
       else if region_type = some "amount" then amountBonus text
       else if region_type = some "expiry" then expiryBonus text
       else if region_type = some "description" then descriptionBonus text
       else 0)
    min score 1

/-! AdaptivePatternRecognizer.classify_text_content
(adaptive_pattern_recognition.py, lines 178-208).  The Python function
iterates over `config['element_patterns']` (a dict element_type → regex
list) and calls `re.search(pattern, text)` on each pattern.  The regex
engine is external to this file: a run is represented by the list of
successful `re.search` results in iteration order, each recording the
element type owning the pattern, the match start `match.start()` and the
match length `len(match.group(0))`.  A valid search result of a nonempty
pattern on `text` satisfies `1 ≤ len` and `start + len ≤ text_len`. -/
structure PatMatch where
  ty : String
  start : ℕ
  len : ℕ
deriving DecidableEq

/-- Confidence of one pattern match:
`(match_len / text_len) * position_factor * 0.8 + 0.2` with
`position_factor = 1 - match.start() / text_len` when `text_len > 0`
(else `0.5`). -/
def matchConfidence (textLen : ℕ) (m : PatMatch) : ℚ :=
  let positionFactor : ℚ := if 0 < textLen then 1 - (m.start : ℚ) / textLen else 1/2
  ((m.len : ℚ) / textLen) * positionFactor * (8/10) + 2/10

/-- One step of the classification loop: keep the (element type, confidence)
of the strictly best match seen so far. -/
def classifyStep (textLen : ℕ) (best : Option String × ℚ) (m : PatMatch) :
    Option String × ℚ :=
  let c := matchConfidence textLen m
  if best.2 < c then (some m.ty, c) else best

/-- Fold of the classification loop, starting from `(None, 0.0)`. -/
def classifyCore (textLen : ℕ) (ms : List PatMatch) : Option String × ℚ :=
  ms.foldl (classifyStep textLen) (none, 0)

/-- AdaptivePatternRecognizer.classify_text_content over the list `ms` of
successful pattern matches of the run (empty text short-circuits to
`(None, 0.0)`). -/
def classify_text_content (text : String) (ms : List PatMatch) : Option String × ℚ :=
  if text = "" then (none, 0)
  else classifyCore text.length ms

/-! Retry decorator (error_recovery.py, lines 36-72), applied to
`extract_text_with_retry` with `max_attempts=3, delay=1, backoff=2`.
The oracle `f` gives the outcome of each successive underlying call;
`i` is the index of the next invocation.  The result records the value or
final exception, the index after the last invocation, and the list of
sleep delays taken between attempts. -/
def retryAux (f : ℕ → Except Unit String) (i : ℕ) (cur backoff : ℚ) :
    ℕ → Except Unit String × ℕ × List ℚ
  | 0 => (.error (), i, [])
  | fuel + 1 =>
    match f i with
    | .ok t => (.ok t, i + 1, [])
    | .error e =>
      if fuel = 0 then (.error e, i + 1, [])
      else
        let r := retryAux f (i + 1) (cur * backoff) backoff fuel
        (r.1, r.2.1, cur :: r.2.2)

/-- The retry wrapper around one OCR call with the decorator's parameters
`max_attempts`, `delay=1`, `backoff=2`. -/
def retryCall (f : ℕ → Except Unit String) (maxAttempts : ℕ) (i : ℕ) :
    Except Unit String × ℕ × List ℚ :=
  retryAux f i 1 2 maxAttempts

/-! ErrorRecoveryHandler (error_recovery.py).  Default configuration:
`max_retry_attempts=3`, `fallback_methods` as below. -/
/-- Default `fallback_methods` configuration of ErrorRecoveryHandler. -/
def defaultFallbackMethods : List String :=
  ["adaptive_threshold", "gaussian_blur", "sharpen", "histogram_equalization"]

/-- Result dictionary of the error-recovery extraction functions. -/
structure FBResult where
  text : String
  confidence : ℚ
  method : String
deriving DecidableEq

/-- Worker for the fallback amount-shape regex on lowercased characters. -/
def amountShapeScan : List Char → Bool
  | [] => false
  | c :: cs =>
    (pyIsDigit c &&
      (cs.headD 'x' == '%' ||
        (['o', 'f', 'f'].isPrefixOf (((c :: cs).dropWhile pyIsDigit).dropWhile pyIsSpace)))) ||
    (c == '₹' && pyIsDigit ((cs.dropWhile pyIsSpace).headD 'x')) ||
    amountShapeScan cs

/-- Scanner for `re.search(r'(?i)(\d+%|₹\s*\d+|\d+\s*off)', text)`: a digit
immediately followed by `%`, or a rupee sign then optional whitespace then a
digit, or a digit run then optional whitespace then `off`
(case-insensitive). -/
def amountShapeCI (text : String) : Bool :=
  amountShapeScan (text.data.map Char.toLower)

/-- Scanner for `re.search(r'^[A-Z0-9]{4,}$', text)`: the whole text is
uppercase alphanumeric with length at least 4. -/
def codeShape (text : String) : Bool :=
  decide (4 ≤ text.length) && text.data.all isUpperDigit

/-- Confidence assigned to a non-trivial fallback result
(error_recovery.py, lines 231-244): `min(0.7, 0.3 + len(text)/50)`, plus a
region-specific shape bonus of 0.2, capped at 0.9. -/
def fallbackConfidence (region_type : Option String) (text : String) : ℚ :=
  let c := min (7/10) (3/10 + (text.length : ℚ) / 50)
  let c :=
    if (region_type == some "code") && codeShape text then c + 2/10
    else if (region_type == some "amount") && amountShapeCI text then c + 2/10
    else if (region_type == some "expiry") && hasDateL text.data then c + 2/10
    else c
  min c (9/10)

/-- Cascade loop of extract_text_with_fallbacks (error_recovery.py, lines
213-248): one retry-wrapped OCR call per fallback method, collecting a
scored result for every call that returns text of length above 1; a method
whose retries are exhausted is caught and skipped.  Returns the collected
results in method order and the next invocation index. -/
def cascadeAux (f : ℕ → Except Unit String) (region_type : Option String) :
    List String → ℕ → List FBResult × ℕ
  | [], n => ([], n)
  | m :: ms, n =>
    match retryCall f 3 n with
    | (.ok text, n2, _) =>
      if text ≠ "" ∧ 1 < text.length then
        let rest := cascadeAux f region_type ms n2
        (⟨text, fallbackConfidence region_type text, m⟩ :: rest.1, rest.2)
      else cascadeAux f region_type ms n2
    | (.error _, n2, _) => cascadeAux f region_type ms n2

/-- Python `results.sort(key=lambda x: x['confidence'], reverse=True)` then
`results[0]`: the sort is stable, so this is the first result attaining the
maximal confidence. -/
def pickBest (r : FBResult) (rs : List FBResult) : FBResult :=
  rs.foldl (fun b x => if b.confidence < x.confidence then x else b) r

/-- Tail of extract_text_with_fallbacks after a failed or trivial primary
attempt: run the cascade, return its best-scoring result, or the empty
result with method `'none'` when the cascade collects nothing. -/
def cascadeFinish (f : ℕ → Except Unit String) (fallback_methods : List String)
    (region_type : Option String) (n : ℕ) : FBResult × ℕ :=
  match cascadeAux f region_type fallback_methods n with
  | ([], n3) => (⟨"", 0, "none"⟩, n3)
  | (r :: rs, n3) => (pickBest r rs, n3)

/-- ErrorRecoveryHandler.extract_text_with_fallbacks (error_recovery.py,
lines 180-260): a retry-wrapped primary attempt, returned with confidence
0.8 and method `'default'` when it yields text of length above 1; otherwise
the fallback cascade. -/
def extract_text_with_fallbacks (f : ℕ → Except Unit String)
    (fallback_methods : List String) (region_type : Option String) (n : ℕ) :
    FBResult × ℕ :=
  match retryCall f 3 n with
  | (.ok text, n2, _) =>
    if text ≠ "" ∧ 1 < text.length then (⟨text, 8/10, "default"⟩, n2)
    else cascadeFinish f fallback_methods region_type n2
  | (.error _, n2, _) => cascadeFinish f fallback_methods region_type n2

/-- Integer pixel box, as the Python region dict
`(left, top, right, bottom)`. -/
structure Region where
  left : ℤ
  top : ℤ
  right : ℤ
  bottom : ℤ
deriving DecidableEq

/-- An OpenCV image as loaded by `cv2.imread`: an `h × w × 3` array; the
pixel contents are only seen by the OCR oracle. -/
structure PyImage where
  height : ℕ
  width : ℕ
deriving DecidableEq

/-- Effective index of a Python slice bound `i` on an axis of length `n`
(negative indices count from the end, results clamp to `[0, n]`). -/
def pySliceIdx (i : ℤ) (n : ℕ) : ℕ :=
  if i < 0 then ((n : ℤ) + i).toNat else min i.toNat n

/-- Number of indices selected by the Python slice `[a:b]` on an axis of
length `n`. -/
def pySliceLen (a b : ℤ) (n : ℕ) : ℕ :=
  pySliceIdx b n - pySliceIdx a n

/-- value of `image[top:bottom, left:right].size` (rows × cols × channels)
for a 3-channel image. -/
def roiSize (img : PyImage) (r : Region) : ℕ :=
  pySliceLen r.top r.bottom img.height * pySliceLen r.left r.right img.width * 3

/-- ErrorRecoveryHandler.process_region (error_recovery.py, lines 262-309):
a degenerate box (`left >= right or top >= bottom`) or an empty crop
short-circuits to the empty result with method `'none'` without invoking
OCR; otherwise the region goes through extract_text_with_fallbacks.  The
outer `except` branch (method `'error'`) is unreachable here because
extract_text_with_fallbacks catches every OCR exception. -/
def ErrorRecovery.process_region (img : PyImage) (f : ℕ → Except Unit String)
    (fallback_methods : List String) (r : Region) (region_type : Option String)
    (n : ℕ) : FBResult × ℕ :=
  if r.left ≥ r.right ∨ r.top ≥ r.bottom then (⟨"", 0, "none"⟩, n)
  else if roiSize img r = 0 then (⟨"", 0, "none"⟩, n)
  else extract_text_with_fallbacks f fallback_methods region_type n

/-- Output dictionary of ErrorRecoveryHandler.process_image: parallel maps
from region type to text, confidence and method. -/
structure EROutput where
  results : List (String × String)
  confidence : List (String × ℚ)
  methods : List (String × String)
deriving DecidableEq

/-- Candidate results of one region list in order, threading the OCR
invocation index (the inner loop of process_image). -/
def ErrorRecovery.candidates (img : PyImage) (f : ℕ → Except Unit String)
    (fallback_methods : List String) (region_type : Option String) :
    List Region → ℕ → List FBResult × ℕ
  | [], n => ([], n)
  | r :: rl, n =>
    let c := ErrorRecovery.process_region img f fallback_methods r region_type n
    let rest := ErrorRecovery.candidates img f fallback_methods region_type rl c.2
    (c.1 :: rest.1, rest.2)

/-- Selection loop of process_image: starting from the empty best result,
replace it by any strictly more confident candidate. -/
def selectBestFB (cs : List FBResult) : FBResult :=
  cs.foldl (fun b c => if b.confidence < c.confidence then c else b) ⟨"", 0, "none"⟩

/-- Region-type loop of ErrorRecoveryHandler.process_image (lines 334-353):
for each region type select the best candidate and record it when its text
is nonempty. -/
def ErrorRecovery.processTypes (img : PyImage) (f : ℕ → Except Unit String)
    (fallback_methods : List String) :
    List (String × List Region) → ℕ → EROutput
  | [], _ => ⟨[], [], []⟩
  | (region_type, rl) :: rest, n =>
    let cs := ErrorRecovery.candidates img f fallback_methods (some region_type) rl n
    let best := selectBestFB cs.1
    let out := ErrorRecovery.processTypes img f fallback_methods rest cs.2
    if best.text ≠ "" then
      ⟨(region_type, best.text) :: out.results,
       (region_type, best.confidence) :: out.confidence,
       (region_type, best.method) :: out.methods⟩
    else out

/-- ErrorRecoveryHandler.process_image (error_recovery.py, lines 311-363):
`cv2.imread` failure (`image is None`) returns the bare empty dict `{}`
(modelled as `none`); otherwise every region of every type is processed and
the per-type best results are returned. -/
def ErrorRecovery.process_image (load : Except Unit PyImage)
    (f : ℕ → Except Unit String) (fallback_methods : List String)
    (regions : List (String × List Region)) : Option EROutput :=
  match load with
  | .error _ => none
  | .ok img => some (ErrorRecovery.processTypes img f fallback_methods regions 0)

/-! CouponRecognizer (testable_coupon_recognizer.py) with the default
dependency implementations (DefaultTextPostprocessor,
DefaultConfidenceCalculator); the injected text extractor is the OCR
oracle, invoked once per valid region. -/
/-- Result dictionary of CouponRecognizer.process_region. -/
structure TRResult where
  text : String
  confidence : ℚ
deriving DecidableEq

/-- CouponRecognizer.process_region (testable_coupon_recognizer.py, lines
459-525): degenerate or empty regions short-circuit to the empty result
without invoking the extractor; otherwise the region is preprocessed, the
extractor produces raw text (one oracle invocation), and the default
postprocessor and confidence calculator score it.  An extractor exception
is caught and yields the empty result. -/
def Recognizer.process_region (img : PyImage) (ex : ℕ → Except Unit String)
    (r : Region) (region_type : Option String) (n : ℕ) : TRResult × ℕ :=
  if r.left ≥ r.right ∨ r.top ≥ r.bottom then (⟨"", 0⟩, n)
  else if roiSize img r = 0 then (⟨"", 0⟩, n)
  else
    match ex n with
    | .ok raw =>
      let processed := postprocess raw region_type
      (⟨processed, calculate_confidence processed region_type⟩, n + 1)
    | .error _ => (⟨"", 0⟩, n + 1)

/-- Candidate results of one region list in order, threading the extractor
invocation index (inner loop of CouponRecognizer.process_image). -/
def Recognizer.candidates (img : PyImage) (ex : ℕ → Except Unit String)
    (region_type : Option String) : List Region → ℕ → List TRResult × ℕ
  | [], n => ([], n)
  | r :: rl, n =>
    let c := Recognizer.process_region img ex r region_type n
    let rest := Recognizer.candidates img ex region_type rl c.2
    (c.1 :: rest.1, rest.2)

/-- Selection loop of CouponRecognizer.process_image: starting from the
empty best result, replace it by any strictly more confident candidate. -/
def selectBestTR (cs : List TRResult) : TRResult :=
  cs.foldl (fun b c => if b.confidence < c.confidence then c else b) ⟨"", 0⟩

/-- Output dictionary of CouponRecognizer.process_image. -/
structure TCROutput where
  results : List (String × String)
  confidence : List (String × ℚ)
deriving DecidableEq

/-- Region-type loop of CouponRecognizer.process_image (lines 546-563): for
each region type select the best candidate and record it when its text is
nonempty and its confidence exceeds 0.3. -/
def Recognizer.processTypes (img : PyImage) (ex : ℕ → Except Unit String) :
    List (String × List Region) → ℕ → TCROutput
  | [], _ => ⟨[], []⟩
  | (region_type, rl) :: rest, n =>
    let cs := Recognizer.candidates img ex (some region_type) rl n
    let best := selectBestTR cs.1
    let out := Recognizer.processTypes img ex rest cs.2
    if best.text ≠ "" ∧ 3/10 < best.confidence then
      ⟨(region_type, best.text) :: out.results,
       (region_type, best.confidence) :: out.confidence⟩
    else out

/-- CouponRecognizer.process_image (testable_coupon_recognizer.py, lines
527-575): the whole body runs under `try`; a loader exception is caught and
returns the dictionary with empty results and confidence maps. -/
def Recognizer.process_image (load : Except Unit PyImage)
    (ex : ℕ → Except Unit String) (regions : List (String × List Region)) :
    TCROutput :=
  match load with
  | .error _ => ⟨[], []⟩
  | .ok img => Recognizer.processTypes img ex regions 0

/-! ResourceManager (resource_management.py).  Its process_region returns a
bare string (empty on degenerate/empty regions or extraction failure, since
ResourceManager.extract_text catches OCR exceptions and returns "");
process_image collects the per-(type, index) futures in submission order and
keeps, per region type, the first nonempty text, replaced only by a strictly
longer text (lines 419-431).  No confidence is computed anywhere. -/
/-- ResourceManager.process_region: the extracted text of one region, "" on
degenerate or empty regions and on OCR failure. -/
def ResourceMgr.process_region (img : PyImage) (ex : ℕ → Except Unit String)
    (r : Region) (n : ℕ) : String × ℕ :=
  if r.left ≥ r.right ∨ r.top ≥ r.bottom then ("", n)
  else if roiSize img r = 0 then ("", n)
  else
    match ex n with
    | .ok raw => (raw, n + 1)
    | .error _ => ("", n + 1)

/-- Result-collection fold of ResourceManager.process_image for one region
type: `acc` is `results.get(region_type)`; a nonempty text is taken when no
text is recorded yet or when it is strictly longer than the recorded one. -/
def ResourceMgr.keepLonger (acc : Option String) (t : String) : Option String :=
  if t = "" then acc
  else
    match acc with
    | none => some t
    | some prev => if prev.length < t.length then some t else some prev

/-- Selection of ResourceManager.process_image over the texts of one region
type in future-collection order. -/
def ResourceMgr.select (texts : List String) : Option String :=
  texts.foldl ResourceMgr.keepLonger none

/-! Concrete inputs used by counterexamples and witnesses. -/
/-- Oracle for the retry witness: the first two invocations raise, the third
returns. -/
def retryOracle : ℕ → Except Unit String :=
  fun i => if i < 2 then .error () else .ok "RECOVERED"

/-- Oracle for the cascade counterexample: the primary attempt returns the
empty string, every later invocation returns a 20-character code-shaped
text. -/
def cascadeOracle : ℕ → Except Unit String :=
  fun i => if i = 0 then .ok "" else .ok "ABCDEFGHIJ1234567890"

/-- A 100 × 100 test image. -/
def img100 : PyImage := ⟨100, 100⟩

/-- The degenerate box of spec scenario 3 (`left=50, top=10, right=10,
bottom=50`). -/
def badRegion : Region := ⟨50, 10, 10, 50⟩

/-- A valid box inside `img100`. -/
def okRegion : Region := ⟨10, 10, 50, 50⟩

/-- A second valid box inside `img100`. -/
def okRegion2 : Region := ⟨10, 60, 50, 90⟩

/-- Per-type text collection of ResourceManager.process_image: the futures
dictionary is filled in submission order and iterated in that same order,
so the texts of one region type reach the result fold in region order. -/
def ResourceMgr.collect (img : PyImage) (ex : ℕ → Except Unit String) :
    List Region → ℕ → List String × ℕ
  | [], n => ([], n)
  | r :: rl, n =>
    let c := ResourceMgr.process_region img ex r n
    let rest := ResourceMgr.collect img ex rl c.2
    (c.1 :: rest.1, rest.2)

/-- Oracle for the C1 counterexample: the first region reads `"SAVE20"`,
the second reads `"!!!!!!!"`. -/
def rmOracle : ℕ → Except Unit String :=
  fun i => if i = 0 then .ok "SAVE20" else .ok "!!!!!!!"

/-- Oracle for the C1 witness: every invocation reads `"SAVE20"`. -/
def tcrOracle : ℕ → Except Unit String := fun _ => .ok "SAVE20"

/-- All whitespace characters of the list are plain spaces. -/
def wsOnlySpace (cs : List Char) : Bool := cs.all (fun c => !pyIsSpace c || c == ' ')

/-- No two adjacent whitespace characters. -/
def noAdjWS : List Char → Bool
  | [] => true
  | [_] => true
  | a :: b :: r => (!(pyIsSpace a && pyIsSpace b)) && noAdjWS (b :: r)

/-- The first character (if any) is not whitespace. -/
def headNotWS (cs : List Char) : Bool := !pyIsSpace (cs.headD 'x')

/-- The last character (if any) is not whitespace. -/
def lastNotWS (cs : List Char) : Bool := !pyIsSpace (cs.getLastD 'x')

/-- Normal form of the output of `strip` + whitespace collapse. -/
def normSpaced (cs : List Char) : Bool :=
  wsOnlySpace cs && noAdjWS cs && headNotWS cs && lastNotWS cs

/-- Relation: `ds` is `cs` with single spaces inserted between pairs of
non-whitespace characters (the shape of both amount substitutions). -/
inductive InsSp : List Char → List Char → Prop
  | nil : InsSp [] []
  | cons (c : Char) {cs ds : List Char} : InsSp cs ds → InsSp (c :: cs) (c :: ds)
  | ins (x y : Char) {cs ds : List Char} : pyIsSpace x = false → pyIsSpace y = false →
      InsSp cs ds → InsSp (x :: y :: cs) (x :: ' ' :: y :: ds)

/-- Absence of the pattern of `re.sub(r'(\d)%', ...)`: no digit is
immediately followed by a percent sign. -/
def noDigitPercent : List Char → Bool
  | [] => true
  | [_] => true
  | c :: d :: cs => !(pyIsDigit c && d == '%') && noDigitPercent (d :: cs)

/-- Anchored test of the regex `(₹|Rs\.?)\d`: the list starts with a
currency marker immediately followed by a digit. -/
def matchCurrencyAt : List Char → Bool
  | '₹' :: d :: _ => pyIsDigit d
  | 'R' :: 's' :: '.' :: d :: _ => pyIsDigit d
  | 'R' :: 's' :: d :: _ => pyIsDigit d
  | _ => false

/-- Presence of the pattern `(₹|Rs\.?)\d` anywhere in the list. -/
def hasCurrencyPat : List Char → Bool
  | [] => false
  | c :: cs => matchCurrencyAt (c :: cs) || hasCurrencyPat cs

/-! Generic lemmas about the max-by-confidence folds. -/
/-- The best-so-far fold never decreases the tracked confidence. -/
theorem foldBest_le {α : Type} (f : α → ℚ) :
    ∀ (cs : List α) (b : α),
      f b ≤ f (cs.foldl (fun x c => if f x < f c then c else x) b) := by
  intro cs
  induction cs with
  | nil => intro b; simp
  | cons c cs ih =>
    intro b
    simp only [List.foldl_cons]
    by_cases h : f b < f c
    · simpa [h] using le_of_lt (lt_of_lt_of_le h (ih c))
    · simpa [h] using ih b

/-- Every list element's confidence is bounded by the fold's result. -/
theorem foldBest_all_le {α : Type} (f : α → ℚ) :
    ∀ (cs : List α) (b : α) (c : α), c ∈ cs →
      f c ≤ f (cs.foldl (fun x c => if f x < f c then c else x) b) := by
  intro cs
  induction cs with
  | nil => intro b c hc; cases hc
  | cons d cs ih =>
    intro b c hc
    simp only [List.foldl_cons]
    rcases List.mem_cons.mp hc with rfl | hc
    · by_cases h : f b < f c
      · simpa [h] using foldBest_le f cs c
      · exact le_trans (le_of_not_lt h) (by simpa [h] using foldBest_le f cs b)
    · by_cases h : f b < f d
      · simpa [h] using ih d c hc
      · simpa [h] using ih b c hc

/-- The fold's result is the seed or a list element. -/
theorem foldBest_mem {α : Type} (f : α → ℚ) :
    ∀ (cs : List α) (b : α),
      cs.foldl (fun x c => if f x < f c then c else x) b ∈ b :: cs := by
  intro cs
  induction cs with
  | nil => intro b; simp
  | cons c cs ih =>
    intro b
    simp only [List.foldl_cons]
    by_cases h : f b < f c
    · simp only [h, if_pos]
      rcases List.mem_cons.mp (ih c) with h2 | h2
      · rw [h2]; exact List.mem_cons_of_mem _ (List.mem_cons_self _ _)
      · exact List.mem_cons_of_mem _ (List.mem_cons_of_mem _ h2)
    · simp only [h, if_neg, not_false_iff]
      rcases List.mem_cons.mp (ih b) with h2 | h2
      · rw [h2]; exact List.mem_cons_self _ _
      · exact List.mem_cons_of_mem _ (List.mem_cons_of_mem _ h2)

/-! Shape and bound lemmas for the fallback cascade. -/
/-- Every fallback-path confidence lies in [0.3, 0.9]. -/
theorem fallbackConfidence_bounds (rt : Option String) (t : String) :
    3/10 ≤ fallbackConfidence rt t ∧ fallbackConfidence rt t ≤ 9/10 := by
  unfold fallbackConfidence
  have h0 : (0:ℚ) ≤ (t.length : ℚ) / 50 := by positivity
  have h1 : (3/10 : ℚ) ≤ min (7/10) (3/10 + (t.length : ℚ) / 50) := by
    refine le_min (by norm_num) (by linarith)
  refine ⟨?_, ?_⟩
  · split_ifs <;> exact le_min (by linarith) (by norm_num)
  · split_ifs <;> exact min_le_right _ _

/-- Every result the cascade collects carries a method from the configured
fallback list, the fallback confidence of its own text, and nonempty text of
length above 1. -/
theorem cascadeAux_shape (f : ℕ → Except Unit String) (rt : Option String) :
    ∀ (fbs : List String) (n : ℕ) (x : FBResult),
      x ∈ (cascadeAux f rt fbs n).1 →
      x.method ∈ fbs ∧ x.confidence = fallbackConfidence rt x.text ∧
        x.text ≠ "" ∧ 1 < x.text.length := by
  intro fbs
  induction fbs with
  | nil => intro n x hx; simp [cascadeAux] at hx
  | cons m ms ih =>
    intro n x hx
    unfold cascadeAux at hx
    rcases hr : retryCall f 3 n with ⟨res, n2, ds⟩
    rw [hr] at hx
    cases res with
    | ok text =>
      simp only at hx
      by_cases hgood : text ≠ "" ∧ 1 < text.length
      · rw [if_pos hgood] at hx
        rcases List.mem_cons.mp hx with rfl | hx2
        · exact ⟨List.mem_cons_self _ _, rfl, hgood.1, hgood.2⟩
        · have := ih n2 x hx2
          exact ⟨List.mem_cons_of_mem _ this.1, this.2⟩
      · rw [if_neg hgood] at hx
        have := ih n2 x hx
        exact ⟨List.mem_cons_of_mem _ this.1, this.2⟩
    | error e =>
      simp only at hx
      have := ih n2 x hx
      exact ⟨List.mem_cons_of_mem _ this.1, this.2⟩

/-- Shape of the extract_text_with_fallbacks result: empty with method
`'none'`, a primary hit with confidence 0.8 and method `'default'`, or a
cascade result. -/
theorem extract_shape (f : ℕ → Except Unit String) (fbs : List String)
    (rt : Option String) (n : ℕ) :
    (extract_text_with_fallbacks f fbs rt n).1 = ⟨"", 0, "none"⟩ ∨
    ((extract_text_with_fallbacks f fbs rt n).1.method = "default" ∧
      (extract_text_with_fallbacks f fbs rt n).1.confidence = 8/10 ∧
      (extract_text_with_fallbacks f fbs rt n).1.text ≠ "") ∨
    ((extract_text_with_fallbacks f fbs rt n).1.method ∈ fbs ∧
      (extract_text_with_fallbacks f fbs rt n).1.confidence =
        fallbackConfidence rt (extract_text_with_fallbacks f fbs rt n).1.text ∧
      (extract_text_with_fallbacks f fbs rt n).1.text ≠ "") := by
  have finish : ∀ m : ℕ,
      (cascadeFinish f fbs rt m).1 = ⟨"", 0, "none"⟩ ∨
      ((cascadeFinish f fbs rt m).1.method ∈ fbs ∧
        (cascadeFinish f fbs rt m).1.confidence =
          fallbackConfidence rt (cascadeFinish f fbs rt m).1.text ∧
        (cascadeFinish f fbs rt m).1.text ≠ "") := by
    intro m
    unfold cascadeFinish
    rcases hc : cascadeAux f rt fbs m with ⟨rs, n3⟩
    cases rs with
    | nil => exact Or.inl rfl
    | cons r rs2 =>
      right
      have hmem : pickBest r rs2 ∈ r :: rs2 := foldBest_mem FBResult.confidence rs2 r
      have hx : pickBest r rs2 ∈ (cascadeAux f rt fbs m).1 := by rw [hc]; exact hmem
      have := cascadeAux_shape f rt fbs m _ hx
      exact ⟨this.1, this.2.1, this.2.2.1⟩
  unfold extract_text_with_fallbacks
  rcases hr : retryCall f 3 n with ⟨res, n2, ds⟩
  cases res with
  | ok text =>
    simp only
    by_cases hgood : text ≠ "" ∧ 1 < text.length
    · rw [if_pos hgood]
      exact Or.inr (Or.inl ⟨rfl, rfl, hgood.1⟩)
    · rw [if_neg hgood]
      exact (finish n2).imp id Or.inr
  | error e =>
    simp only
    exact (finish n2).imp id Or.inr

/-! Lemmas about the retry wrapper. -/
/-- The wrapper makes at most `fuel` underlying invocations. -/
theorem retryAux_calls_le (f : ℕ → Except Unit String) :
    ∀ (fuel i : ℕ) (d b : ℚ), (retryAux f i d b fuel).2.1 ≤ i + fuel := by
  intro fuel
  induction fuel with
  | zero => intro i d b; simp [retryAux]
  | succ k ih =>
    intro i d b
    unfold retryAux
    cases hf : f i with
    | ok t => simp
    | error e =>
      by_cases hk : k = 0
      · subst hk; simp
      · simp only [hk, if_neg, not_false_iff]
        have := ih (i + 1) (d * b) b
        omega

/-- With positive fuel the wrapper makes at least one invocation. -/
theorem retryAux_calls_ge (f : ℕ → Except Unit String) :
    ∀ (fuel i : ℕ) (d b : ℚ), 0 < fuel → i + 1 ≤ (retryAux f i d b fuel).2.1 := by
  intro fuel
  induction fuel with
  | zero => intro i d b h; omega
  | succ k ih =>
    intro i d b _
    unfold retryAux
    cases hf : f i with
    | ok t => simp
    | error e =>
      by_cases hk : k = 0
      · subst hk; simp
      · simp only [hk, if_neg, not_false_iff]
        have := ih (i + 1) (d * b) b (by omega)
        omega

/-- Retry semantics on success: `k` failing invocations followed by a
success within the budget return that success after exactly `k + 1`
invocations, having slept `d, d·b, …, d·b^(k-1)`. -/
theorem retryAux_success (f : ℕ → Except Unit String) (t : String) :
    ∀ (k fuel i : ℕ) (d b : ℚ), k < fuel →
      (∀ j, j < k → f (i + j) = .error ()) → f (i + k) = .ok t →
      retryAux f i d b fuel =
        (.ok t, i + k + 1, (List.range k).map (fun j => d * b ^ j)) := by
  intro k
  induction k with
  | zero =>
    intro fuel i d b hk hfail hok
    cases fuel with
    | zero => omega
    | succ m =>
      unfold retryAux
      rw [show i + 0 = i from rfl] at hok
      rw [hok]
      simp
  | succ k ih =>
    intro fuel i d b hk hfail hok
    cases fuel with
    | zero => omega
    | succ m =>
      unfold retryAux
      have h0 : f i = .error () := by simpa using hfail 0 (by omega)
      rw [h0]
      simp only
      have hm : m ≠ 0 := by omega
      rw [if_neg hm]
      have hrec := ih m (i + 1) (d * b) b (by omega)
        (fun j hj => by
          have := hfail (j + 1) (by omega)
          simpa [Nat.add_assoc, Nat.add_comm 1 j] using this)
        (by
          have : i + 1 + k = i + (k + 1) := by omega
          rw [this]; exact hok)
      rw [hrec]
      refine Prod.ext rfl (Prod.ext (by simp; omega) ?_)
      simp only [List.range_succ_eq_map, List.map_cons, List.map_map]
      refine congrArg₂ _ (by simp) ?_
      refine List.map_congr_left ?_
      intro j _
      simp [pow_succ]
      ring

/-- Retry semantics on exhaustion: if every invocation in the budget fails,
the wrapper re-raises after exactly `fuel` invocations. -/
theorem retryAux_fail (f : ℕ → Except Unit String) :
    ∀ (fuel i : ℕ) (d b : ℚ), 0 < fuel →
      (∀ j, j < fuel → f (i + j) = .error ()) →
      (retryAux f i d b fuel).1 = .error () ∧
        (retryAux f i d b fuel).2.1 = i + fuel := by
  intro fuel
  induction fuel with
  | zero => intro i d b h; omega
  | succ m ih =>
    intro i d b _ hfail
    unfold retryAux
    have h0 : f i = .error () := by simpa using hfail 0 (by omega)
    rw [h0]
    simp only
    by_cases hm : m = 0
    · subst hm; simp
    · rw [if_neg hm]
      have := ih (i + 1) (d * b) b (by omega)
        (fun j hj => by
          have := hfail (j + 1) (by omega)
          simpa [Nat.add_assoc, Nat.add_comm 1 j] using this)
      exact ⟨this.1, by simp [this.2]; omega⟩

/-- The wrapper re-raises only when every invocation in the budget failed. -/
theorem retryAux_error_implies (f : ℕ → Except Unit String) :
    ∀ (fuel i : ℕ) (d b : ℚ) (e : Unit),
      (retryAux f i d b fuel).1 = .error e →
      ∀ j, j < fuel → f (i + j) = .error () := by
  intro fuel
  induction fuel with
  | zero => intro i d b e h j hj; omega
  | succ m ih =>
    intro i d b e h j hj
    unfold retryAux at h
    cases hf : f i with
    | ok t => rw [hf] at h; simp at h
    | error e2 =>
      rw [hf] at h
      simp only at h
      by_cases hm : m = 0
      · subst hm
        have : j = 0 := by omega
        subst this
        simpa using hf
      · rw [if_neg hm] at h
        cases j with
        | zero => simpa using hf
        | succ j2 =>
          have := ih (i + 1) (d * b) b e h j2 (by omega)
          have harr : i + 1 + j2 = i + (j2 + 1) := by omega
          rw [harr] at this
          exact this

/-! Call-count bounds for the cascade. -/
/-- The cascade makes at most three invocations per fallback method. -/
theorem cascadeAux_calls_le (f : ℕ → Except Unit String) (rt : Option String) :
    ∀ (fbs : List String) (n : ℕ),
      (cascadeAux f rt fbs n).2 ≤ n + 3 * fbs.length := by
  intro fbs
  induction fbs with
  | nil => intro n; simp [cascadeAux]
  | cons m ms ih =>
    intro n
    unfold cascadeAux
    rcases hr : retryCall f 3 n with ⟨res, n2, ds⟩
    have hn2 : n2 ≤ n + 3 := by
      have := retryAux_calls_le f 3 n 1 2
      rw [show retryAux f n 1 2 3 = retryCall f 3 n from rfl, hr] at this
      exact this
    cases res with
    | ok text =>
      simp only
      by_cases hgood : text ≠ "" ∧ 1 < text.length
      · rw [if_pos hgood]
        have := ih n2
        simp only [List.length_cons]
        omega
      · rw [if_neg hgood]
        have := ih n2
        simp only [List.length_cons]
        omega
    | error e =>
      simp only
      have := ih n2
      simp only [List.length_cons]
      omega

/-- The cascade makes at least one invocation per fallback method: it never
stops early, whatever the collected confidences are. -/
theorem cascadeAux_calls_ge (f : ℕ → Except Unit String) (rt : Option String) :
    ∀ (fbs : List String) (n : ℕ),
      n + fbs.length ≤ (cascadeAux f rt fbs n).2 := by
  intro fbs
  induction fbs with
  | nil => intro n; simp [cascadeAux]
  | cons m ms ih =>
    intro n
    unfold cascadeAux
    rcases hr : retryCall f 3 n with ⟨res, n2, ds⟩
    have hn2 : n + 1 ≤ n2 := by
      have := retryAux_calls_ge f 3 n 1 2 (by omega)
      rw [show retryAux f n 1 2 3 = retryCall f 3 n from rfl, hr] at this
      exact this
    cases res with
    | ok text =>
      simp only
      by_cases hgood : text ≠ "" ∧ 1 < text.length
      · rw [if_pos hgood]
        have := ih n2
        simp only [List.length_cons]
        omega
      · rw [if_neg hgood]
        have := ih n2
        simp only [List.length_cons]
        omega
    | error e =>
      simp only
      have := ih n2
      simp only [List.length_cons]
      omega

/-- The final index of cascadeFinish is the final index of the cascade. -/
theorem cascadeFinish_calls (f : ℕ → Except Unit String) (fbs : List String)
    (rt : Option String) (n : ℕ) :
    (cascadeFinish f fbs rt n).2 = (cascadeAux f rt fbs n).2 := by
  unfold cascadeFinish
  rcases hc : cascadeAux f rt fbs n with ⟨rs, n3⟩
  cases rs <;> rfl

/-! Bounds for the confidence calculator and the pattern classifier. -/
/-- Nonnegative bonuses stay nonnegative. -/
theorem bonus_nonneg (b : Bool) {x : ℚ} (h : 0 ≤ x) : 0 ≤ bonus b x := by
  cases b
  · simp [bonus]
  · simpa [bonus] using h

/-- The store bonuses are nonnegative. -/
theorem storeBonus_nonneg (t : String) : 0 ≤ storeBonus t := by
  unfold storeBonus
  refine add_nonneg (add_nonneg (add_nonneg ?_ ?_) ?_) ?_ <;>
    exact bonus_nonneg _ (by norm_num)

/-- The code bonuses are nonnegative. -/
theorem codeBonus_nonneg (t : String) : 0 ≤ codeBonus t := by
  unfold codeBonus
  refine add_nonneg (add_nonneg (add_nonneg ?_ ?_) ?_) ?_ <;>
    exact bonus_nonneg _ (by norm_num)

/-- The amount bonuses are nonnegative. -/
theorem amountBonus_nonneg (t : String) : 0 ≤ amountBonus t := by
  unfold amountBonus
  refine add_nonneg (add_nonneg (add_nonneg (add_nonneg ?_ ?_) ?_) ?_) ?_ <;>
    exact bonus_nonneg _ (by norm_num)

/-- The expiry bonuses are nonnegative. -/
theorem expiryBonus_nonneg (t : String) : 0 ≤ expiryBonus t := by
  unfold expiryBonus
  refine add_nonneg (add_nonneg (add_nonneg ?_ ?_) ?_) ?_ <;>
    exact bonus_nonneg _ (by norm_num)

/-- The description bonuses are nonnegative. -/
theorem descriptionBonus_nonneg (t : String) : 0 ≤ descriptionBonus t := by
  unfold descriptionBonus
  refine add_nonneg (add_nonneg (add_nonneg ?_ ?_) ?_) ?_ <;>
    exact bonus_nonneg _ (by norm_num)

/-- The confidence calculator always lands in the unit interval. -/
theorem calculate_confidence_bounds (t : String) (rt : Option String) :
    0 ≤ calculate_confidence t rt ∧ calculate_confidence t rt ≤ 1 := by
  unfold calculate_confidence
  by_cases ht : t = ""
  · rw [if_pos ht]; norm_num
  · rw [if_neg ht]
    simp only
    have hb : (0:ℚ) ≤
        (if rt = some "store" then storeBonus t
         else if rt = some "code" then codeBonus t
         else if rt = some "amount" then amountBonus t
         else if rt = some "expiry" then expiryBonus t
         else if rt = some "description" then descriptionBonus t
         else 0) := by
      split_ifs
      · exact storeBonus_nonneg t
      · exact codeBonus_nonneg t
      · exact amountBonus_nonneg t
      · exact expiryBonus_nonneg t
      · exact descriptionBonus_nonneg t
      · norm_num
    constructor
    · exact le_min (by linarith) (by norm_num)
    · exact min_le_right _ _

/-- Every valid pattern match scores strictly above 0.2 and at most 1. -/
theorem matchConfidence_bounds (L : ℕ) (m : PatMatch) (hL : 0 < L)
    (h1 : 1 ≤ m.len) (h2 : m.start + m.len ≤ L) :
    2/10 < matchConfidence L m ∧ matchConfidence L m ≤ 1 := by
  unfold matchConfidence
  rw [if_pos hL]
  have hLq : (0:ℚ) < (L : ℚ) := by exact_mod_cast hL
  have hlen : (0:ℚ) < (m.len : ℚ) := by exact_mod_cast h1
  have hlenle : (m.len : ℚ) ≤ (L : ℚ) := by
    exact_mod_cast le_trans (Nat.le_add_left _ _) h2
  have hstartlen : (m.start : ℚ) + (m.len : ℚ) ≤ (L : ℚ) := by exact_mod_cast h2
  have hstartpos : (0:ℚ) ≤ (m.start : ℚ) := by positivity
  have hstartlt : (m.start : ℚ) < (L : ℚ) := by linarith
  have hpf0 : 0 < 1 - (m.start : ℚ) / L := by
    have : (m.start : ℚ) / L < 1 := (div_lt_one hLq).mpr hstartlt
    linarith
  have hpf1 : 1 - (m.start : ℚ) / L ≤ 1 := by
    have : 0 ≤ (m.start : ℚ) / L := by positivity
    linarith
  have hfrac0 : 0 < (m.len : ℚ) / L := div_pos hlen hLq
  have hfrac1 : (m.len : ℚ) / L ≤ 1 := (div_le_one hLq).mpr hlenle
  constructor
  · have hprod : 0 < (m.len : ℚ) / L * (1 - (m.start : ℚ) / L) := mul_pos hfrac0 hpf0
    nlinarith
  · have hprod : (m.len : ℚ) / L * (1 - (m.start : ℚ) / L) ≤ 1 := by
      nlinarith
    nlinarith

/-- Unfolding lemma for one classification step. -/
theorem classifyStep_eq (L : ℕ) (b : Option String × ℚ) (m : PatMatch) :
    classifyStep L b m =
      if b.2 < matchConfidence L m then (some m.ty, matchConfidence L m) else b := rfl

/-- Fold invariant of the classification loop: the tracked confidence never
decreases, bounds every match seen, and the final state is the seed or the
state built from some match. -/
theorem classifyFold_spec (L : ℕ) :
    ∀ (ms : List PatMatch) (b : Option String × ℚ),
      b.2 ≤ (ms.foldl (classifyStep L) b).2 ∧
      (∀ m ∈ ms, matchConfidence L m ≤ (ms.foldl (classifyStep L) b).2) ∧
      (ms.foldl (classifyStep L) b = b ∨
        ∃ m ∈ ms, ms.foldl (classifyStep L) b = (some m.ty, matchConfidence L m)) := by
  intro ms
  induction ms with
  | nil => intro b; exact ⟨le_rfl, by simp, Or.inl rfl⟩
  | cons m ms ih =>
    intro b
    simp only [List.foldl_cons]
    by_cases h : b.2 < matchConfidence L m
    · rw [show classifyStep L b m = (some m.ty, matchConfidence L m) by
        rw [classifyStep_eq, if_pos h]]
      obtain ⟨ha, hb, hc⟩ := ih (some m.ty, matchConfidence L m)
      refine ⟨le_trans (le_of_lt h) (by simpa using ha), ?_, ?_⟩
      · intro m2 hm2
        rcases List.mem_cons.mp hm2 with rfl | h2
        · simpa using ha
        · exact hb m2 h2
      · rcases hc with hc | ⟨m2, hm2, hc⟩
        · exact Or.inr ⟨m, List.mem_cons_self _ _, hc⟩
        · exact Or.inr ⟨m2, List.mem_cons_of_mem _ hm2, hc⟩
    · rw [show classifyStep L b m = b by rw [classifyStep_eq, if_neg h]]
      obtain ⟨ha, hb, hc⟩ := ih b
      refine ⟨ha, ?_, ?_⟩
      · intro m2 hm2
        rcases List.mem_cons.mp hm2 with rfl | h2
        · exact le_trans (le_of_not_lt h) ha
        · exact hb m2 h2
      · rcases hc with hc | ⟨m2, hm2, hc⟩
        · exact Or.inl hc
        · exact Or.inr ⟨m2, List.mem_cons_of_mem _ hm2, hc⟩

/-- The classification fold stays in the unit interval, dominates every
match, and returns the state of some match when one exists. -/
theorem classifyCore_spec (L : ℕ) (hL : 0 < L) (ms : List PatMatch)
    (hval : ∀ m ∈ ms, 1 ≤ m.len ∧ m.start + m.len ≤ L) :
    (0 ≤ (classifyCore L ms).2 ∧ (classifyCore L ms).2 ≤ 1) ∧
    (∀ m ∈ ms, matchConfidence L m ≤ (classifyCore L ms).2) ∧
    (ms ≠ [] → ∃ m ∈ ms, classifyCore L ms = (some m.ty, matchConfidence L m)) := by
  obtain ⟨ha, hb, hc⟩ := classifyFold_spec L ms (none, 0)
  have hbounds : ∀ m ∈ ms, 2/10 < matchConfidence L m ∧ matchConfidence L m ≤ 1 :=
    fun m hm => matchConfidence_bounds L m hL (hval m hm).1 (hval m hm).2
  refine ⟨⟨?_, ?_⟩, hb, ?_⟩
  · rcases hc with hc | ⟨m, hm, hc⟩
    · rw [show classifyCore L ms = (none, 0) from hc]
    · rw [show classifyCore L ms = (some m.ty, matchConfidence L m) from hc]
      have := (hbounds m hm).1
      simp only
      linarith
  · rcases hc with hc | ⟨m, hm, hc⟩
    · rw [show classifyCore L ms = (none, 0) from hc]; norm_num
    · rw [show classifyCore L ms = (some m.ty, matchConfidence L m) from hc]
      exact (hbounds m hm).2
  · intro hne
    rcases hc with hc | hc
    · cases ms with
      | nil => exact absurd rfl hne
      | cons m ms2 =>
        exfalso
        have hm := hb m (List.mem_cons_self _ _)
        have h2 := (hbounds m (List.mem_cons_self _ _)).1
        rw [hc] at hm
        simp only at hm
        linarith
    · exact hc

/-- Nonempty strings have positive length. -/
theorem string_pos_length {t : String} (h : t ≠ "") : 0 < t.length := by
  cases t with
  | mk data =>
    cases data with
    | nil => exact absurd rfl h
    | cons c cs => simp [String.length]

/-! The claims. -/
/-- C2: every confidence the engine produces lies in [0, 1] and the empty
string always scores exactly 0: DefaultConfidenceCalculator over every text
and region type, classify_text_content over every valid set of pattern
matches, and the fallback cascade of ErrorRecoveryHandler over every OCR
oracle. -/
theorem C2_confidence_bounds :
    (∀ (t : String) (rt : Option String),
      0 ≤ calculate_confidence t rt ∧ calculate_confidence t rt ≤ 1) ∧
    (∀ rt : Option String, calculate_confidence "" rt = 0) ∧
    (∀ (t : String) (ms : List PatMatch),
      (∀ m ∈ ms, 1 ≤ m.len ∧ m.start + m.len ≤ t.length) →
      0 ≤ (classify_text_content t ms).2 ∧ (classify_text_content t ms).2 ≤ 1) ∧
    (∀ (f : ℕ → Except Unit String) (fbs : List String) (rt : Option String) (n : ℕ),
      0 ≤ (extract_text_with_fallbacks f fbs rt n).1.confidence ∧
        (extract_text_with_fallbacks f fbs rt n).1.confidence ≤ 1) := by
  refine ⟨calculate_confidence_bounds, ?_, ?_, ?_⟩
  · intro rt; rfl
  · intro t ms hval
    unfold classify_text_content
    by_cases ht : t = ""
    · rw [if_pos ht]; norm_num
    · rw [if_neg ht]
      exact (classifyCore_spec t.length (string_pos_length ht) ms hval).1
  · intro f fbs rt n
    rcases extract_shape f fbs rt n with he | ⟨_, hc, _⟩ | ⟨_, hc, _⟩
    · rw [he]; norm_num
    · rw [hc]; norm_num
    · rw [hc]
      have := fallbackConfidence_bounds rt (extract_text_with_fallbacks f fbs rt n).1.text
      constructor <;> linarith

/-- Witness for C2 at a concrete text and match list. -/
theorem C2_witness :
    (∀ m ∈ ([⟨"store", 0, 6⟩] : List PatMatch),
      1 ≤ m.len ∧ m.start + m.len ≤ ("MYNTRA" : String).length) ∧
    (0 ≤ (classify_text_content "MYNTRA" [⟨"store", 0, 6⟩]).2 ∧
      (classify_text_content "MYNTRA" [⟨"store", 0, 6⟩]).2 ≤ 1) ∧
    (0 ≤ calculate_confidence "SAVE20" (some "code") ∧
      calculate_confidence "SAVE20" (some "code") ≤ 1) :=
  ⟨by decide,
   C2_confidence_bounds.2.2.1 "MYNTRA" [⟨"store", 0, 6⟩] (by decide),
   C2_confidence_bounds.1 "SAVE20" (some "code")⟩

/-- C10: every result of extract_text_with_fallbacks and of
ErrorRecoveryHandler.process_region has empty text exactly when its
confidence is 0, and its method is `'default'`, a configured fallback
method, `'none'` or `'error'` (the embedding shows `'error'` is never even
reached: extract_text_with_fallbacks catches all OCR exceptions). -/
theorem C10_result_invariant :
    ∀ (img : PyImage) (f : ℕ → Except Unit String) (fbs : List String)
      (rt : Option String) (r : Region) (n : ℕ),
      (((extract_text_with_fallbacks f fbs rt n).1.text = "" ↔
          (extract_text_with_fallbacks f fbs rt n).1.confidence = 0) ∧
        ((extract_text_with_fallbacks f fbs rt n).1.method = "default" ∨
          (extract_text_with_fallbacks f fbs rt n).1.method ∈ fbs ∨
          (extract_text_with_fallbacks f fbs rt n).1.method = "none" ∨
          (extract_text_with_fallbacks f fbs rt n).1.method = "error")) ∧
      (((ErrorRecovery.process_region img f fbs r rt n).1.text = "" ↔
          (ErrorRecovery.process_region img f fbs r rt n).1.confidence = 0) ∧
        ((ErrorRecovery.process_region img f fbs r rt n).1.method = "default" ∨
          (ErrorRecovery.process_region img f fbs r rt n).1.method ∈ fbs ∨
          (ErrorRecovery.process_region img f fbs r rt n).1.method = "none" ∨
          (ErrorRecovery.process_region img f fbs r rt n).1.method = "error")) := by
  have key : ∀ (f : ℕ → Except Unit String) (fbs : List String)
      (rt : Option String) (n : ℕ),
      ((extract_text_with_fallbacks f fbs rt n).1.text = "" ↔
        (extract_text_with_fallbacks f fbs rt n).1.confidence = 0) ∧
      ((extract_text_with_fallbacks f fbs rt n).1.method = "default" ∨
        (extract_text_with_fallbacks f fbs rt n).1.method ∈ fbs ∨
        (extract_text_with_fallbacks f fbs rt n).1.method = "none" ∨
        (extract_text_with_fallbacks f fbs rt n).1.method = "error") := by
    intro f fbs rt n
    rcases extract_shape f fbs rt n with he | ⟨hm, hc, ht⟩ | ⟨hm, hc, ht⟩
    · rw [he]
      exact ⟨by simp, Or.inr (Or.inr (Or.inl rfl))⟩
    · refine ⟨⟨fun h => absurd h ht, fun h => ?_⟩, Or.inl hm⟩
      rw [hc] at h
      norm_num at h
    · refine ⟨⟨fun h => absurd h ht, fun h => ?_⟩, Or.inr (Or.inl hm)⟩
      rw [hc] at h
      have := (fallbackConfidence_bounds rt
        (extract_text_with_fallbacks f fbs rt n).1.text).1
      rw [h] at this
      norm_num at this
  intro img f fbs rt r n
  refine ⟨key f fbs rt n, ?_⟩
  unfold ErrorRecovery.process_region
  split_ifs with h1 h2
  · exact ⟨by simp, Or.inr (Or.inr (Or.inl rfl))⟩
  · exact ⟨by simp, Or.inr (Or.inr (Or.inl rfl))⟩
  · exact key f fbs rt n

/-- C8 counterexample to the early-stop half of the claim: the primary
attempt returns trivial text, the first fallback method already produces a
candidate with confidence 0.9, the cap and hence the largest value any
fallback candidate can score — above any meaningful acceptance threshold —
yet the cascade still runs the remaining three methods: the final
invocation index is 5 (primary + all four fallbacks), not 2.  There is no
acceptance threshold anywhere in extract_text_with_fallbacks. -/
theorem C8_counterexample :
    extract_text_with_fallbacks cascadeOracle defaultFallbackMethods (some "code") 0 =
      (⟨"ABCDEFGHIJ1234567890", 9/10, "adaptive_threshold"⟩, 5) := by decide

/-- C8 amended: the attempt bound of the claim holds — at most
`(1 + retries) + len(fallback_methods) × (1 + retries)` underlying OCR
invocations per region extraction with `retries = max_retry_attempts - 1 =
2` — but the cascade never stops early: it makes at least one invocation
per configured fallback method regardless of the confidences collected. -/
theorem C8_amended_attempt_bound :
    (∀ (f : ℕ → Except Unit String) (fbs : List String) (rt : Option String) (n : ℕ),
      (extract_text_with_fallbacks f fbs rt n).2 ≤ n + (1 + 2) + fbs.length * (1 + 2)) ∧
    (∀ (f : ℕ → Except Unit String) (rt : Option String) (fbs : List String) (n : ℕ),
      n + fbs.length ≤ (cascadeAux f rt fbs n).2) := by
  constructor
  · intro f fbs rt n
    unfold extract_text_with_fallbacks
    rcases hr : retryCall f 3 n with ⟨res, n2, ds⟩
    have hn2 : n2 ≤ n + 3 := by
      have := retryAux_calls_le f 3 n 1 2
      rw [show retryAux f n 1 2 3 = retryCall f 3 n from rfl, hr] at this
      exact this
    have hcf : ∀ m : ℕ, m ≤ n + 3 →
        (cascadeFinish f fbs rt m).2 ≤ n + (1 + 2) + fbs.length * (1 + 2) := by
      intro m hm
      rw [cascadeFinish_calls]
      have := cascadeAux_calls_le f rt fbs m
      omega
    cases res with
    | ok text =>
      simp only
      by_cases hgood : text ≠ "" ∧ 1 < text.length
      · rw [if_pos hgood]; simp only; omega
      · rw [if_neg hgood]; exact hcf n2 hn2
    | error e =>
      simp only
      exact hcf n2 hn2
  · exact fun f rt fbs n => cascadeAux_calls_ge f rt fbs n

/-- C7: retry semantics of the decorator, for every oracle, budget, initial
delay and backoff factor: `k` failures followed by a success within the
budget return that success after exactly `k + 1` invocations with delays
`d, d·b, …, d·b^(k-1)`; the wrapper re-raises exactly when all
`max_attempts` invocations fail, after exactly `max_attempts` invocations;
and it never makes more than `max_attempts` invocations. -/
theorem C7_retry_semantics :
    ∀ (f : ℕ → Except Unit String) (k fuel i : ℕ) (d b : ℚ) (t : String),
      (k < fuel → (∀ j, j < k → f (i + j) = .error ()) → f (i + k) = .ok t →
        retryAux f i d b fuel =
          (.ok t, i + k + 1, (List.range k).map (fun j => d * b ^ j))) ∧
      (0 < fuel → (∀ j, j < fuel → f (i + j) = .error ()) →
        (retryAux f i d b fuel).1 = .error () ∧
          (retryAux f i d b fuel).2.1 = i + fuel) ∧
      ((retryAux f i d b fuel).2.1 ≤ i + fuel) ∧
      (∀ e, (retryAux f i d b fuel).1 = .error e →
        ∀ j, j < fuel → f (i + j) = .error ()) :=
  fun f k fuel i d b t =>
    ⟨fun hk hfail hok => retryAux_success f t k fuel i d b hk hfail hok,
     fun hfuel hfail => retryAux_fail f fuel i d b hfuel hfail,
     retryAux_calls_le f fuel i d b,
     fun e he => retryAux_error_implies f fuel i d b e he⟩

/-- Witness for C7: two failures then a success within `max_retry_attempts=3`
yield the successful text after three invocations, with delays 1 and 2. -/
theorem C7_witness :
    retryAux retryOracle 0 1 2 3 =
      (.ok "RECOVERED", 0 + 2 + 1, (List.range 2).map (fun j => (1:ℚ) * 2 ^ j)) :=
  (C7_retry_semantics retryOracle 2 3 0 1 2 "RECOVERED").1 (by omega)
    (fun j hj => by
      match j, hj with
      | 0, _ => rfl
      | 1, _ => rfl)
    (by rfl)

/-- C6: a region with degenerate bounds
(`left >= right or top >= bottom`) or an empty cropped pixel area returns
the empty candidate without any OCR invocation (the returned invocation
index equals the incoming one, so the extractor oracle is never consulted):
`{text: "", confidence: 0.0, method: "none"}` in
ErrorRecoveryHandler.process_region, `{text: "", confidence: 0.0}` in
CouponRecognizer.process_region. -/
theorem C6_degenerate_region :
    ∀ (img : PyImage) (f ex : ℕ → Except Unit String) (fbs : List String)
      (r : Region) (rt : Option String) (n : ℕ),
      (r.left ≥ r.right ∨ r.top ≥ r.bottom ∨ roiSize img r = 0) →
      ErrorRecovery.process_region img f fbs r rt n = (⟨"", 0, "none"⟩, n) ∧
      Recognizer.process_region img ex r rt n = (⟨"", 0⟩, n) := by
  intro img f ex fbs r rt n h
  constructor
  · unfold ErrorRecovery.process_region
    split_ifs with h1 h2
    · rfl
    · rfl
    · exfalso
      rcases h with h | h | h
      · exact h1 (Or.inl h)
      · exact h1 (Or.inr h)
      · exact h2 h
  · unfold Recognizer.process_region
    split_ifs with h1 h2
    · rfl
    · rfl
    · exfalso
      rcases h with h | h | h
      · exact h1 (Or.inl h)
      · exact h1 (Or.inr h)
      · exact h2 h

/-- Witness for C6 at the degenerate box of spec scenario 3. -/
theorem C6_witness :
    (badRegion.left ≥ badRegion.right ∨ badRegion.top ≥ badRegion.bottom ∨
      roiSize img100 badRegion = 0) ∧
    ErrorRecovery.process_region img100 cascadeOracle defaultFallbackMethods
        badRegion (some "code") 0 = (⟨"", 0, "none"⟩, 0) ∧
    Recognizer.process_region img100 cascadeOracle badRegion (some "code") 0 =
      (⟨"", 0⟩, 0) :=
  ⟨by decide,
   C6_degenerate_region img100 cascadeOracle cascadeOracle defaultFallbackMethods
     badRegion (some "code") 0 (by decide)⟩

/-- C9: per-image processing never raises toward the caller: both
process_image embeddings are total functions, and when the source image
cannot be decoded (the loader raises / `cv2.imread` returns `None`) they
return their empty-mapping value — `{'results': {}, 'confidence': {}}` for
CouponRecognizer (whose whole body runs under `try`), the bare `{}` for
ErrorRecoveryHandler — rather than propagating an exception. -/
theorem C9_unreadable_image :
    ∀ (ex f : ℕ → Except Unit String) (fbs : List String)
      (regions : List (String × List Region)),
      Recognizer.process_image (.error ()) ex regions = ⟨[], []⟩ ∧
      ErrorRecovery.process_image (.error ()) f fbs regions = none :=
  fun _ _ _ _ => ⟨rfl, rfl⟩

/-- C4 counterexample: the code-branch postprocessor uppercases and strips
every non-alphanumeric character from the whole text, so
`"Use code: SAVE20"` normalizes to `"USECODESAVE20"`, not to `"SAVE20"` as
the claim states. -/
theorem C4_counterexample :
    postprocess "Use code: SAVE20" (some "code") = "USECODESAVE20" ∧
    postprocess "Use code: SAVE20" (some "code") ≠ "SAVE20" := by
  constructor <;> decide

/-- C4 amended: postprocessing `"Use code: SAVE20"` with field type code
yields `"USECODESAVE20"`, and the confidence computed for that normalized
result is strictly greater than 0.7 (it is exactly 1.0). -/
theorem C4_amended_scenario :
    postprocess "Use code: SAVE20" (some "code") = "USECODESAVE20" ∧
    7/10 < calculate_confidence (postprocess "Use code: SAVE20" (some "code"))
      (some "code") := by
  constructor <;> decide

/-- C3 counterexample: on the text `"MYNTRA"` the configured patterns
produce two `re.search` matches — the store literal `(?i)myntra` at start 0
with length 6, and the code pattern `(?i)^[A-Z0-9]{5,}$` at start 0 with
length 6 (no other default pattern matches: the text has no digits, no
currency or percent signs, and none of the literals `code`, `use`, `flat`,
`save`, `valid`, `expires`, `on`, `minimum`).  The classifier returns
confidence `(6/6)·(1 − 0/6)·0.8 + 0.2 = 1.0`, strictly above the ceiling of
0.9 asserted by the claim; the confidence formula has no separate label
boost — the `+0.2` is added to every pattern match. -/
theorem C3_counterexample :
    classify_text_content "MYNTRA" [⟨"store", 0, 6⟩, ⟨"code", 0, 6⟩] =
      (some "store", 1) ∧
    (9/10 : ℚ) <
      (classify_text_content "MYNTRA" [⟨"store", 0, 6⟩, ⟨"code", 0, 6⟩]).2 := by
  constructor <;> decide

/-- C3 amended: for every nonempty text, classification returns the
highest-confidence pattern match over all field types (not the first match;
ties favor the earlier pattern), with confidence
`(match_len/text_len)·(1 − match_start/text_len)·0.8 + 0.2`, which lies in
`(0.2, 1]` — floor 0.2 (strict), ceiling 1.0, and no separate label boost:
the `+0.2` term is the additive constant applied to every match. -/
theorem C3_amended_classification :
    ∀ (text : String) (ms : List PatMatch),
      text ≠ "" →
      (∀ m ∈ ms, 1 ≤ m.len ∧ m.start + m.len ≤ text.length) →
      (∀ m ∈ ms, matchConfidence text.length m ≤ (classify_text_content text ms).2) ∧
      (ms ≠ [] → ∃ m ∈ ms,
        classify_text_content text ms = (some m.ty, matchConfidence text.length m)) ∧
      (∀ m ∈ ms, 2/10 < matchConfidence text.length m ∧
        matchConfidence text.length m ≤ 1) := by
  intro text ms ht hval
  have hL := string_pos_length ht
  have hspec := classifyCore_spec text.length hL ms hval
  have hcc : classify_text_content text ms = classifyCore text.length ms := by
    unfold classify_text_content
    rw [if_neg ht]
  refine ⟨?_, ?_, fun m hm => matchConfidence_bounds _ m hL (hval m hm).1 (hval m hm).2⟩
  · rw [hcc]; exact hspec.2.1
  · rw [hcc]; exact hspec.2.2

/-- Witness for C3 at the matches of the run on `"MYNTRA"`. -/
theorem C3_witness :
    (∀ m ∈ ([⟨"store", 0, 6⟩, ⟨"code", 0, 6⟩] : List PatMatch),
      1 ≤ m.len ∧ m.start + m.len ≤ ("MYNTRA" : String).length) ∧
    (∀ m ∈ ([⟨"store", 0, 6⟩, ⟨"code", 0, 6⟩] : List PatMatch),
      matchConfidence ("MYNTRA" : String).length m ≤
        (classify_text_content "MYNTRA" [⟨"store", 0, 6⟩, ⟨"code", 0, 6⟩]).2) :=
  ⟨by decide,
   (C3_amended_classification "MYNTRA" [⟨"store", 0, 6⟩, ⟨"code", 0, 6⟩]
     (by decide) (by decide)).1⟩

/-! C1: selection lemmas for the three process_image implementations. -/
/-- Every result CouponRecognizer.process_image records is the
max-by-confidence candidate of some region list of the input map. -/
theorem Recognizer_processTypes_spec (img : PyImage) (ex : ℕ → Except Unit String) :
    ∀ (regions : List (String × List Region)) (n : ℕ) (rt txt : String),
      (rt, txt) ∈ (Recognizer.processTypes img ex regions n).results →
      ∃ (rl : List Region) (m : ℕ),
        (rt, rl) ∈ regions ∧
        selectBestTR (Recognizer.candidates img ex (some rt) rl m).1 ∈
          (Recognizer.candidates img ex (some rt) rl m).1 ∧
        txt = (selectBestTR (Recognizer.candidates img ex (some rt) rl m).1).text ∧
        ∀ c ∈ (Recognizer.candidates img ex (some rt) rl m).1,
          c.confidence ≤
            (selectBestTR (Recognizer.candidates img ex (some rt) rl m).1).confidence := by
  intro regions
  induction regions with
  | nil => intro n rt txt h; simp [Recognizer.processTypes] at h
  | cons p rest ih =>
    rcases p with ⟨rt0, rl0⟩
    intro n rt txt h
    unfold Recognizer.processTypes at h
    by_cases hcond : (selectBestTR (Recognizer.candidates img ex (some rt0) rl0 n).1).text ≠ "" ∧
        3/10 < (selectBestTR (Recognizer.candidates img ex (some rt0) rl0 n).1).confidence
    · rw [if_pos hcond] at h
      rcases List.mem_cons.mp h with heq | h2
      · injection heq with h_rt h_txt
        subst h_rt
        refine ⟨rl0, n, List.mem_cons_self _ _, ?_, h_txt, ?_⟩
        · have hmem := foldBest_mem TRResult.confidence
            (Recognizer.candidates img ex (some rt) rl0 n).1 ⟨"", 0⟩
          rcases List.mem_cons.mp hmem with hbad | hgood
          · exfalso
            apply hcond.1
            rw [show selectBestTR (Recognizer.candidates img ex (some rt) rl0 n).1 =
              (⟨"", 0⟩ : TRResult) from hbad]
          · exact hgood
        · exact fun c hc => foldBest_all_le TRResult.confidence _ _ c hc
      · obtain ⟨rl, m, hmem, hrest⟩ := ih _ rt txt h2
        exact ⟨rl, m, List.mem_cons_of_mem _ hmem, hrest⟩
    · rw [if_neg hcond] at h
      obtain ⟨rl, m, hmem, hrest⟩ := ih _ rt txt h
      exact ⟨rl, m, List.mem_cons_of_mem _ hmem, hrest⟩

/-- Every result ErrorRecoveryHandler.process_image records is the
max-by-confidence candidate of some region list of the input map. -/
theorem ErrorRecovery_processTypes_spec (img : PyImage)
    (f : ℕ → Except Unit String) (fbs : List String) :
    ∀ (regions : List (String × List Region)) (n : ℕ) (rt txt : String),
      (rt, txt) ∈ (ErrorRecovery.processTypes img f fbs regions n).results →
      ∃ (rl : List Region) (m : ℕ),
        (rt, rl) ∈ regions ∧
        selectBestFB (ErrorRecovery.candidates img f fbs (some rt) rl m).1 ∈
          (ErrorRecovery.candidates img f fbs (some rt) rl m).1 ∧
        txt = (selectBestFB (ErrorRecovery.candidates img f fbs (some rt) rl m).1).text ∧
        ∀ c ∈ (ErrorRecovery.candidates img f fbs (some rt) rl m).1,
          c.confidence ≤
            (selectBestFB (ErrorRecovery.candidates img f fbs (some rt) rl m).1).confidence := by
  intro regions
  induction regions with
  | nil => intro n rt txt h; simp [ErrorRecovery.processTypes] at h
  | cons p rest ih =>
    rcases p with ⟨rt0, rl0⟩
    intro n rt txt h
    unfold ErrorRecovery.processTypes at h
    by_cases hcond :
        (selectBestFB (ErrorRecovery.candidates img f fbs (some rt0) rl0 n).1).text ≠ ""
    · rw [if_pos hcond] at h
      rcases List.mem_cons.mp h with heq | h2
      · injection heq with h_rt h_txt
        subst h_rt
        refine ⟨rl0, n, List.mem_cons_self _ _, ?_, h_txt, ?_⟩
        · have hmem := foldBest_mem FBResult.confidence
            (ErrorRecovery.candidates img f fbs (some rt) rl0 n).1 ⟨"", 0, "none"⟩
          rcases List.mem_cons.mp hmem with hbad | hgood
          · exfalso
            apply hcond
            rw [show selectBestFB (ErrorRecovery.candidates img f fbs (some rt) rl0 n).1 =
              (⟨"", 0, "none"⟩ : FBResult) from hbad]
          · exact hgood
        · exact fun c hc => foldBest_all_le FBResult.confidence _ _ c hc
      · obtain ⟨rl, m, hmem, hrest⟩ := ih _ rt txt h2
        exact ⟨rl, m, List.mem_cons_of_mem _ hmem, hrest⟩
    · rw [if_neg hcond] at h
      obtain ⟨rl, m, hmem, hrest⟩ := ih _ rt txt h
      exact ⟨rl, m, List.mem_cons_of_mem _ hmem, hrest⟩

/-- The result ResourceManager.process_image keeps per region type is a
nonempty text of maximal length among the collected texts. -/
theorem ResourceMgr_fold_spec :
    ∀ (texts : List String) (acc : Option String) (t : String),
      texts.foldl ResourceMgr.keepLonger acc = some t →
      ((t ∈ texts ∧ t ≠ "") ∨ acc = some t) ∧
      (∀ u ∈ texts, u ≠ "" → u.length ≤ t.length) ∧
      (∀ p, acc = some p → p.length ≤ t.length) := by
  intro texts
  induction texts with
  | nil =>
    intro acc t h
    simp only [List.foldl_nil] at h
    refine ⟨Or.inr h, by simp, ?_⟩
    intro p hp
    rw [hp] at h
    injection h with h
    rw [h]
  | cons u texts ih =>
    intro acc t h
    simp only [List.foldl_cons] at h
    obtain ⟨h1, h2, h3⟩ := ih (ResourceMgr.keepLonger acc u) t h
    have hstep : ∀ p, ResourceMgr.keepLonger acc u = some p →
        (p = u ∧ u ≠ "") ∨ acc = some p := by
      intro p hp
      unfold ResourceMgr.keepLonger at hp
      by_cases hu : u = ""
      · rw [if_pos hu] at hp; exact Or.inr hp
      · rw [if_neg hu] at hp
        cases hacc : acc with
        | none => rw [hacc] at hp; injection hp with hp; exact Or.inl ⟨hp.symm, hu⟩
        | some prev =>
          rw [hacc] at hp
          simp only at hp
          by_cases hlen : prev.length < u.length
          · rw [if_pos hlen] at hp
            injection hp with hp
            exact Or.inl ⟨hp.symm, hu⟩
          · rw [if_neg hlen] at hp
            injection hp with hp
            rw [← hp]; exact Or.inr rfl
    have hulen : u ≠ "" → u.length ≤ t.length := by
      intro hu
      unfold ResourceMgr.keepLonger at h3
      rw [if_neg hu] at h3
      cases hacc : acc with
      | none =>
        have := h3 u (by rw [hacc])
        exact this
      | some prev =>
        by_cases hlen : prev.length < u.length
        · have := h3 u (by rw [hacc]; simp only; rw [if_pos hlen])
          exact this
        · have := h3 prev (by rw [hacc]; simp only; rw [if_neg hlen])
          omega
    refine ⟨?_, ?_, ?_⟩
    · rcases h1 with ⟨hmem, hne⟩ | hacc'
      · exact Or.inl ⟨List.mem_cons_of_mem _ hmem, hne⟩
      · rcases hstep t hacc' with ⟨rfl, hne⟩ | hacc2
        · exact Or.inl ⟨List.mem_cons_self _ _, hne⟩
        · exact Or.inr hacc2
    · intro v hv hvne
      rcases List.mem_cons.mp hv with rfl | hv2
      · exact hulen hvne
      · exact h2 v hv2 hvne
    · intro p hp
      by_cases hu : u = ""
      · refine h3 p ?_
        unfold ResourceMgr.keepLonger
        rw [if_pos hu]; exact hp
      · cases hacc : acc with
        | none => rw [hacc] at hp; cases hp
        | some prev =>
          rw [hacc] at hp
          injection hp with hp
          rw [← hp]
          by_cases hlen : prev.length < u.length
          · have h4 := hulen hu
            omega
          · refine h3 prev ?_
            unfold ResourceMgr.keepLonger
            rw [if_neg hu, hacc]
            simp only
            rw [if_neg hlen]

/-- C1 counterexample: ResourceManager.process_image (one of the claim's
three process_image implementations) does not select by confidence: among
the two candidate texts of the `code` field, it keeps the strictly longer
`"!!!!!!!"` although the engine's confidence calculator scores it 0.6,
below the 1.0 of the discarded `"SAVE20"` — so the selected result is not a
maximum-confidence candidate. -/
theorem C1_counterexample :
    ResourceMgr.select (ResourceMgr.collect img100 rmOracle [okRegion, okRegion2] 0).1 =
      some "!!!!!!!" ∧
    calculate_confidence "!!!!!!!" (some "code") <
      calculate_confidence "SAVE20" (some "code") := by
  constructor <;> decide

/-- C1 amended: arbitration is max-by-confidence for
CouponRecognizer.process_image and ErrorRecoveryHandler.process_image —
every recorded field result is a candidate of that field type's run whose
confidence bounds every other candidate's — while
ResourceManager.process_image computes no confidences and instead keeps a
nonempty text of maximal length (the first one, replaced only by strictly
longer texts). -/
theorem C1_amended_arbitration :
    (∀ (img : PyImage) (ex : ℕ → Except Unit String)
      (regions : List (String × List Region)) (n : ℕ) (rt txt : String),
      (rt, txt) ∈ (Recognizer.processTypes img ex regions n).results →
      ∃ (rl : List Region) (m : ℕ),
        (rt, rl) ∈ regions ∧
        selectBestTR (Recognizer.candidates img ex (some rt) rl m).1 ∈
          (Recognizer.candidates img ex (some rt) rl m).1 ∧
        txt = (selectBestTR (Recognizer.candidates img ex (some rt) rl m).1).text ∧
        ∀ c ∈ (Recognizer.candidates img ex (some rt) rl m).1,
          c.confidence ≤
            (selectBestTR (Recognizer.candidates img ex (some rt) rl m).1).confidence) ∧
    (∀ (img : PyImage) (f : ℕ → Except Unit String) (fbs : List String)
      (regions : List (String × List Region)) (n : ℕ) (rt txt : String),
      (rt, txt) ∈ (ErrorRecovery.processTypes img f fbs regions n).results →
      ∃ (rl : List Region) (m : ℕ),
        (rt, rl) ∈ regions ∧
        selectBestFB (ErrorRecovery.candidates img f fbs (some rt) rl m).1 ∈
          (ErrorRecovery.candidates img f fbs (some rt) rl m).1 ∧
        txt = (selectBestFB (ErrorRecovery.candidates img f fbs (some rt) rl m).1).text ∧
        ∀ c ∈ (ErrorRecovery.candidates img f fbs (some rt) rl m).1,
          c.confidence ≤
            (selectBestFB (ErrorRecovery.candidates img f fbs (some rt) rl m).1).confidence) ∧
    (∀ (texts : List String) (t : String),
      ResourceMgr.select texts = some t →
      t ∈ texts ∧ t ≠ "" ∧ ∀ u ∈ texts, u ≠ "" → u.length ≤ t.length) := by
  refine ⟨Recognizer_processTypes_spec, ErrorRecovery_processTypes_spec, ?_⟩
  intro texts t h
  obtain ⟨h1, h2, _⟩ := ResourceMgr_fold_spec texts none t h
  rcases h1 with ⟨hmem, hne⟩ | hbad
  · exact ⟨hmem, hne, h2⟩
  · cases hbad

/-- Witness for C1 at a concrete one-type run of CouponRecognizer. -/
theorem C1_witness :
    (("code", "SAVE20") ∈
      (Recognizer.processTypes img100 tcrOracle [("code", [okRegion])] 0).results) ∧
    (∃ (rl : List Region) (m : ℕ),
      ("code", rl) ∈ ([("code", [okRegion])] : List (String × List Region)) ∧
      selectBestTR (Recognizer.candidates img100 tcrOracle (some "code") rl m).1 ∈
        (Recognizer.candidates img100 tcrOracle (some "code") rl m).1 ∧
      "SAVE20" = (selectBestTR (Recognizer.candidates img100 tcrOracle (some "code") rl m).1).text ∧
      ∀ c ∈ (Recognizer.candidates img100 tcrOracle (some "code") rl m).1,
        c.confidence ≤
          (selectBestTR (Recognizer.candidates img100 tcrOracle (some "code") rl m).1).confidence) :=
  ⟨by decide,
   C1_amended_arbitration.1 img100 tcrOracle [("code", [okRegion])] 0 "code" "SAVE20"
     (by decide)⟩

/-! Character-level lemmas for the idempotence of the postprocessor. -/
/-- Valid codepoints round-trip through `Char.ofNat`. -/
theorem toNat_ofNat_valid (n : ℕ) (h : n < 55296) : (Char.ofNat n).toNat = n := by
  unfold Char.ofNat
  rw [dif_pos (Or.inl h)]
  simp [Char.ofNatAux, Char.toNat, UInt32.toNat]

/-- Order on `UInt32` through `toNat`. -/
theorem uint32_le_iff {a b : UInt32} : a ≤ b ↔ a.toNat ≤ b.toNat := by
  rw [UInt32.le_def, BitVec.le_def]
  exact Iff.rfl

/-- Order on `Char` through `toNat`. -/
theorem char_le_iff {a b : Char} : a ≤ b ↔ a.toNat ≤ b.toNat := by
  rw [Char.le_def, uint32_le_iff]
  exact Iff.rfl

/-- Digits are the codepoints 48-57. -/
theorem char_isDigit_iff {c : Char} : c.isDigit = true ↔ 48 ≤ c.toNat ∧ c.toNat ≤ 57 := by
  simp only [Char.isDigit, ge_iff_le, Bool.and_eq_true, decide_eq_true_eq, uint32_le_iff]
  have h48 : (48 : UInt32).toNat = 48 := rfl
  have h57 : (57 : UInt32).toNat = 57 := rfl
  rw [h48, h57]
  exact Iff.rfl

/-- Codepoint ranges of the class `[A-Z0-9]`. -/
theorem upperDigit_toNat {c : Char} (h : isUpperDigit c = true) :
    (65 ≤ c.toNat ∧ c.toNat ≤ 90) ∨ (48 ≤ c.toNat ∧ c.toNat ≤ 57) := by
  rcases Bool.or_eq_true_iff.mp h with h2 | h2
  · rcases Bool.and_eq_true_iff.mp h2 with ⟨ha, hb⟩
    left
    exact ⟨char_le_iff.mp (of_decide_eq_true ha), char_le_iff.mp (of_decide_eq_true hb)⟩
  · right
    exact char_isDigit_iff.mp h2

/-- Uppercasing fixes the characters of the class `[A-Z0-9]`. -/
theorem toUpper_of_upperDigit {c : Char} (h : isUpperDigit c = true) :
    c.toUpper = c := by
  have hr := upperDigit_toNat h
  unfold Char.toUpper
  rw [if_neg]
  intro hc
  omega

/-- Whitespace characters all have codepoints at most 32. -/
theorem pyIsSpace_toNat {c : Char} (h : pyIsSpace c = true) : c.toNat ≤ 32 := by
  simp [pyIsSpace] at h
  rcases h with ((((h | h) | h) | h) | h) | h <;> subst h <;> decide

/-- Characters with large codepoints are not whitespace. -/
theorem notSpace_of_ge {c : Char} (h : 33 ≤ c.toNat) : pyIsSpace c = false := by
  cases hs : pyIsSpace c
  · rfl
  · have := pyIsSpace_toNat hs
    omega

/-- Uppercasing is idempotent. -/
theorem toUpper_toUpper (c : Char) : c.toUpper.toUpper = c.toUpper := by
  unfold Char.toUpper
  by_cases h : c.toNat ≥ 97 ∧ c.toNat ≤ 122
  · rw [if_pos h]
    have ht : (Char.ofNat (c.toNat - 32)).toNat = c.toNat - 32 :=
      toNat_ofNat_valid _ (by omega)
    rw [if_neg (by rw [ht]; omega)]
  · rw [if_neg h, if_neg h]

/-- Lowercasing is idempotent. -/
theorem toLower_toLower (c : Char) : c.toLower.toLower = c.toLower := by
  unfold Char.toLower
  by_cases h : c.toNat ≥ 65 ∧ c.toNat ≤ 90
  · rw [if_pos h]
    have ht : (Char.ofNat (c.toNat + 32)).toNat = c.toNat + 32 :=
      toNat_ofNat_valid _ (by omega)
    rw [if_neg (by rw [ht]; omega)]
  · rw [if_neg h, if_neg h]

/-- Uppercasing preserves non-whitespace-ness. -/
theorem pyIsSpace_toUpper (c : Char) : pyIsSpace c.toUpper = pyIsSpace c := by
  unfold Char.toUpper
  by_cases h : c.toNat ≥ 97 ∧ c.toNat ≤ 122
  · rw [if_pos h]
    have ht : (Char.ofNat (c.toNat - 32)).toNat = c.toNat - 32 :=
      toNat_ofNat_valid _ (by omega)
    have h1 : pyIsSpace (Char.ofNat (c.toNat - 32)) = false :=
      notSpace_of_ge (by rw [ht]; omega)
    have h2 : pyIsSpace c = false := notSpace_of_ge (by omega)
    rw [h1, h2]
  · rw [if_neg h]

/-- Lowercasing preserves non-whitespace-ness. -/
theorem pyIsSpace_toLower (c : Char) : pyIsSpace c.toLower = pyIsSpace c := by
  unfold Char.toLower
  by_cases h : c.toNat ≥ 65 ∧ c.toNat ≤ 90
  · rw [if_pos h]
    have ht : (Char.ofNat (c.toNat + 32)).toNat = c.toNat + 32 :=
      toNat_ofNat_valid _ (by omega)
    have h1 : pyIsSpace (Char.ofNat (c.toNat + 32)) = false :=
      notSpace_of_ge (by rw [ht]; omega)
    have h2 : pyIsSpace c = false := notSpace_of_ge (by omega)
    rw [h1, h2]
  · rw [if_neg h]

/-- Equation lemma for `wordsAux` on nil. -/
theorem wordsAux_nil (acc : List Char) :
    wordsAux [] acc = if acc.isEmpty then [] else [acc.reverse] := rfl

/-- Equation lemma for `wordsAux` on cons. -/
theorem wordsAux_cons (c : Char) (cs acc : List Char) :
    wordsAux (c :: cs) acc =
      if pyIsSpace c then
        (if acc.isEmpty then wordsAux cs [] else acc.reverse :: wordsAux cs [])
      else wordsAux cs (c :: acc) := rfl

/-- Equation lemma for `collapseAux` on cons. -/
theorem collapseAux_cons (c : Char) (cs : List Char) (b : Bool) :
    collapseAux (c :: cs) b =
      if pyIsSpace c then
        (if b then collapseAux cs true else ' ' :: collapseAux cs true)
      else c :: collapseAux cs false := rfl

/-- Leading whitespace does not change the word list. -/
theorem wordsAux_dropWhile (cs : List Char) :
    wordsAux (cs.dropWhile pyIsSpace) [] = wordsAux cs [] := by
  induction cs with
  | nil => rfl
  | cons c cs ih =>
    rw [List.dropWhile_cons]
    by_cases h : pyIsSpace c
    · rw [if_pos h, ih, wordsAux_cons, if_pos h]
      simp
    · rw [if_neg h]

/-- A run of whitespace alone closes the current word. -/
theorem wordsAux_all_ws :
    ∀ (tr : List Char), (∀ c ∈ tr, pyIsSpace c = true) →
      ∀ acc, wordsAux tr acc = if acc.isEmpty then [] else [acc.reverse] := by
  intro tr
  induction tr with
  | nil => intro _ acc; rfl
  | cons c tr ih =>
    intro h acc
    have hc : pyIsSpace c = true := h c (List.mem_cons_self _ _)
    have htr := fun d hd => h d (List.mem_cons_of_mem _ hd)
    rw [wordsAux_cons, if_pos hc, ih htr []]
    by_cases ha : acc.isEmpty
    · rw [if_pos ha, if_pos ha]
      rfl
    · rw [if_neg ha, if_neg ha]
      rfl

/-- Trailing whitespace does not change the word list. -/
theorem wordsAux_append_ws (tr : List Char) (htr : ∀ c ∈ tr, pyIsSpace c = true) :
    ∀ (cs acc : List Char), wordsAux (cs ++ tr) acc = wordsAux cs acc := by
  intro cs
  induction cs with
  | nil =>
    intro acc
    rw [List.nil_append, wordsAux_all_ws tr htr acc, wordsAux_nil]
  | cons c cs ih =>
    intro acc
    rw [List.cons_append, wordsAux_cons, wordsAux_cons]
    by_cases h : pyIsSpace c
    · rw [if_pos h, if_pos h]
      by_cases ha : acc.isEmpty
      · rw [if_pos ha, if_pos ha, ih []]
      · rw [if_neg ha, if_neg ha, ih []]
    · rw [if_neg h, if_neg h, ih (c :: acc)]

/-- Decomposition of strip: the stripped list, followed by all-whitespace
residue, is the leading-whitespace-free part of the input. -/
theorem strip_decomp (cs : List Char) :
    ∃ tr, stripL cs ++ tr = cs.dropWhile pyIsSpace ∧
      ∀ c ∈ tr, pyIsSpace c = true := by
  set Y := cs.dropWhile pyIsSpace with hY
  have hsplit := List.takeWhile_append_dropWhile (p := pyIsSpace) (l := Y.reverse)
  refine ⟨(Y.reverse.takeWhile pyIsSpace).reverse, ?_, ?_⟩
  · have h0 : stripL cs = (Y.reverse.dropWhile pyIsSpace).reverse := rfl
    rw [h0, ← List.reverse_append, hsplit, List.reverse_reverse]
  · intro c hc
    rw [List.mem_reverse] at hc
    exact List.mem_takeWhile_imp hc

/-- Stripping does not change the word list. -/
theorem wordsL_strip (cs : List Char) : wordsL (stripL cs) = wordsL cs := by
  obtain ⟨tr, htr, hws⟩ := strip_decomp cs
  unfold wordsL
  rw [← wordsAux_dropWhile cs, ← htr, wordsAux_append_ws tr hws]

/-- Collapsing whitespace runs does not change the word list. -/
theorem wordsAux_collapse :
    ∀ (cs : List Char),
      (∀ acc, wordsAux (collapseAux cs false) acc = wordsAux cs acc) ∧
      wordsAux (collapseAux cs true) [] = wordsAux cs [] := by
  intro cs
  induction cs with
  | nil => exact ⟨fun _ => rfl, rfl⟩
  | cons c cs ih =>
    constructor
    · intro acc
      rw [collapseAux_cons, wordsAux_cons]
      by_cases h : pyIsSpace c
      · rw [if_pos h, if_pos h, if_neg (by simp : ¬(false = true)),
          wordsAux_cons, if_pos (show pyIsSpace ' ' = true from rfl)]
        by_cases ha : acc.isEmpty
        · rw [if_pos ha, if_pos ha, ih.2]
        · rw [if_neg ha, if_neg ha, ih.2]
      · rw [if_neg h, if_neg h, wordsAux_cons, if_neg h, (ih.1) (c :: acc)]
    · rw [collapseAux_cons, wordsAux_cons]
      by_cases h : pyIsSpace c
      · rw [if_pos h, if_pos h, if_pos rfl, if_pos (by rfl : ([] : List Char).isEmpty = true)]
        exact ih.2
      · rw [if_neg h, if_neg h, wordsAux_cons, if_neg h, (ih.1) [c]]

/-- The word list of the collapsed, stripped text is the word list of the
original text. -/
theorem wordsL_collapse_strip (cs : List Char) :
    wordsL (collapseL (stripL cs)) = wordsL cs := by
  unfold collapseL wordsL
  rw [(wordsAux_collapse (stripL cs)).1 []]
  exact wordsL_strip cs

/-- Words produced by the split are nonempty and whitespace-free. -/
theorem wordsAux_good :
    ∀ (cs acc : List Char), (∀ c ∈ acc, pyIsSpace c = false) →
      ∀ w ∈ wordsAux cs acc, w ≠ [] ∧ ∀ c ∈ w, pyIsSpace c = false := by
  intro cs
  induction cs with
  | nil =>
    intro acc hacc w hw
    rw [wordsAux_nil] at hw
    by_cases ha : acc.isEmpty
    · rw [if_pos ha] at hw
      cases hw
    · rw [if_neg ha] at hw
      rcases List.mem_singleton.mp hw with rfl
      refine ⟨by simpa [List.isEmpty_iff] using ha, ?_⟩
      intro c hc
      exact hacc c (List.mem_reverse.mp hc)
  | cons c cs ih =>
    intro acc hacc w hw
    rw [wordsAux_cons] at hw
    by_cases h : pyIsSpace c
    · rw [if_pos h] at hw
      by_cases ha : acc.isEmpty
      · rw [if_pos ha] at hw
        exact ih [] (by simp) w hw
      · rw [if_neg ha] at hw
        rcases List.mem_cons.mp hw with rfl | hw2
        · refine ⟨by simpa [List.isEmpty_iff] using ha, ?_⟩
          intro d hd
          exact hacc d (List.mem_reverse.mp hd)
        · exact ih [] (by simp) w hw2
    · rw [if_neg h] at hw
      refine ih (c :: acc) ?_ w hw
      intro d hd
      rcases List.mem_cons.mp hd with rfl | hd2
      · simpa using h
      · exact hacc d hd2

/-- Scanning a whitespace-free word accumulates it reversed. -/
theorem wordsAux_word (w : List Char) (hw : ∀ c ∈ w, pyIsSpace c = false) :
    ∀ (cs acc : List Char), wordsAux (w ++ cs) acc = wordsAux cs (w.reverse ++ acc) := by
  induction w with
  | nil => intro cs acc; simp
  | cons c w ih =>
    intro cs acc
    have hc : pyIsSpace c = false := hw c (List.mem_cons_self _ _)
    have hw2 := fun d hd => hw d (List.mem_cons_of_mem _ hd)
    rw [List.cons_append, wordsAux_cons, if_neg (by simp [hc]), ih hw2 cs (c :: acc)]
    simp

/-- The split is a left inverse of the space join on lists of nonempty
whitespace-free words. -/
theorem wordsL_join :
    ∀ (ws : List (List Char)),
      (∀ w ∈ ws, w ≠ [] ∧ ∀ c ∈ w, pyIsSpace c = false) →
      wordsL (joinWords ws) = ws := by
  intro ws
  induction ws with
  | nil => intro _; rfl
  | cons w ws ih =>
    intro h
    obtain ⟨hwne, hwns⟩ := h w (List.mem_cons_self _ _)
    have hrest := fun v hv => h v (List.mem_cons_of_mem _ hv)
    cases ws with
    | nil =>
      show wordsL (joinWords [w]) = [w]
      have h1 := wordsAux_word w hwns [] []
      rw [List.append_nil] at h1
      unfold joinWords wordsL
      rw [h1, wordsAux_nil]
      simp [hwne]
    | cons v vs =>
      show wordsL (w ++ ' ' :: joinWords (v :: vs)) = w :: v :: vs
      unfold wordsL
      rw [wordsAux_word w hwns, List.append_nil, wordsAux_cons,
        if_pos (show pyIsSpace ' ' = true from rfl)]
      rw [if_neg (by simpa [List.isEmpty_iff] using hwne)]
      rw [List.reverse_reverse]
      have := ih hrest
      unfold wordsL at this
      rw [this]

/-- Capitalization is idempotent on words. -/
theorem capWordL_idem (w : List Char) : capWordL (capWordL w) = capWordL w := by
  match w with
  | [] => rfl
  | [c] =>
    show capWordL [c.toUpper] = [c.toUpper]
    show [c.toUpper.toUpper] = [c.toUpper]
    rw [toUpper_toUpper]
  | c :: d :: rest =>
    show capWordL (c.toUpper :: (d :: rest).map Char.toLower) = _
    rw [List.map_cons]
    show c.toUpper.toUpper :: (d.toLower :: rest.map Char.toLower).map Char.toLower =
      c.toUpper :: (d :: rest).map Char.toLower
    rw [toUpper_toUpper, List.map_cons, toLower_toLower, List.map_map, List.map_cons]
    congr 2
    exact List.map_congr_left (fun x _ => toLower_toLower x)

/-- Capitalization keeps words nonempty. -/
theorem capWordL_ne_nil {w : List Char} (h : w ≠ []) : capWordL w ≠ [] := by
  match w with
  | [c] => simp [capWordL]
  | c :: d :: rest => simp [capWordL]

/-- Capitalization keeps words whitespace-free. -/
theorem capWordL_no_ws {w : List Char} (h : ∀ c ∈ w, pyIsSpace c = false) :
    ∀ c ∈ capWordL w, pyIsSpace c = false := by
  match w with
  | [] => intro c hc; cases hc
  | [c] =>
    intro d hd
    rcases List.mem_singleton.mp hd with rfl
    rw [pyIsSpace_toUpper]
    exact h c (List.mem_singleton.mpr rfl)
  | c :: d :: rest =>
    intro e he
    rcases List.mem_cons.mp he with rfl | he2
    · rw [pyIsSpace_toUpper]
      exact h c (List.mem_cons_self _ _)
    · obtain ⟨x, hx, rfl⟩ := List.mem_map.mp he2
      rw [pyIsSpace_toLower]
      exact h x (List.mem_cons_of_mem _ hx)

/-- Unfolding lemma for the store branch. -/
theorem postStoreL_eq (cs : List Char) :
    postStoreL cs =
      joinWords (((wordsL (collapseL (stripL cs))).filter
        (fun w => !w.isEmpty)).map capWordL) := rfl

/-- The store branch of the postprocessor is idempotent. -/
theorem postStoreL_idem (cs : List Char) : postStoreL (postStoreL cs) = postStoreL cs := by
  have hgood : ∀ w ∈ wordsL cs, w ≠ [] ∧ ∀ c ∈ w, pyIsSpace c = false :=
    fun w hw => wordsAux_good cs [] (by simp) w hw
  have hfilter : ∀ (ws : List (List Char)), (∀ w ∈ ws, w ≠ []) →
      ws.filter (fun w => !w.isEmpty) = ws := by
    intro ws h
    refine List.filter_eq_self.mpr ?_
    intro w hw
    simpa [List.isEmpty_iff] using h w hw
  have hcapgood : ∀ w ∈ (wordsL cs).map capWordL, w ≠ [] ∧ ∀ c ∈ w, pyIsSpace c = false := by
    intro w hw
    obtain ⟨v, hv, rfl⟩ := List.mem_map.mp hw
    exact ⟨capWordL_ne_nil (hgood v hv).1, capWordL_no_ws (hgood v hv).2⟩
  have e1 : postStoreL cs = joinWords ((wordsL cs).map capWordL) := by
    rw [postStoreL_eq, wordsL_collapse_strip, hfilter _ (fun w hw => (hgood w hw).1)]
  rw [e1, postStoreL_eq, wordsL_collapse_strip, wordsL_join _ hcapgood,
    hfilter _ (fun w hw => (hcapgood w hw).1), List.map_map]
  congr 1
  exact List.map_congr_left (fun w _ => capWordL_idem w)

/-- Characterization of `noAdjWS` on cons. -/
theorem noAdjWS_cons (a : Char) (l : List Char) :
    noAdjWS (a :: l) = true ↔
      noAdjWS l = true ∧ (pyIsSpace a = true → pyIsSpace (l.headD 'x') = false) := by
  cases l with
  | nil =>
    constructor
    · intro _
      exact ⟨rfl, fun _ => by decide⟩
    · intro _
      rfl
  | cons b r =>
    show ((!(pyIsSpace a && pyIsSpace b)) && noAdjWS (b :: r)) = true ↔ _
    constructor
    · intro h
      have h1 : (!(pyIsSpace a && pyIsSpace b)) = true := (Bool.and_eq_true_iff.mp h).1
      have h2 : noAdjWS (b :: r) = true := (Bool.and_eq_true_iff.mp h).2
      refine ⟨h2, fun ha => ?_⟩
      have hb : pyIsSpace b = false := by
        cases hb : pyIsSpace b
        · rfl
        · rw [ha, hb] at h1
          exact absurd h1 (by decide)
      simpa using hb
    · rintro ⟨h2, h1⟩
      apply Bool.and_eq_true_iff.mpr
      refine ⟨?_, h2⟩
      by_cases ha : pyIsSpace a = true
      · have hb : pyIsSpace b = false := by simpa using h1 ha
        rw [ha, hb]
        decide
      · have ha2 : pyIsSpace a = false := by
          cases hx : pyIsSpace a
          · rfl
          · exact absurd hx ha
        rw [ha2]
        simp

/-- The default does not matter for `getLastD` of a nonempty list. -/
theorem getLastD_irrel {l : List Char} (h : l ≠ []) (d e : Char) :
    l.getLastD d = l.getLastD e := by
  cases l with
  | nil => exact absurd rfl h
  | cons a l => rw [List.getLastD_cons, List.getLastD_cons]

/-- The last element of a nonempty list is a member. -/
theorem getLastD_mem {l : List Char} (h : l ≠ []) (d : Char) : l.getLastD d ∈ l := by
  induction l generalizing d with
  | nil => exact absurd rfl h
  | cons a l ih =>
    rw [List.getLastD_cons]
    cases l with
    | nil => simp [List.getLastD]
    | cons b r => exact List.mem_cons_of_mem _ (ih (by simp) a)

/-- The head after dropping leading whitespace is not whitespace. -/
theorem dropWhile_headD (l : List Char) :
    pyIsSpace ((l.dropWhile pyIsSpace).headD 'x') = false := by
  induction l with
  | nil => decide
  | cons c l ih =>
    rw [List.dropWhile_cons]
    by_cases h : pyIsSpace c
    · rw [if_pos h]; exact ih
    · rw [if_neg h]
      simpa using h

/-- The stripped list starts with a non-whitespace character. -/
theorem headNotWS_strip (cs : List Char) : headNotWS (stripL cs) = true := by
  obtain ⟨tr, htr, _⟩ := strip_decomp cs
  unfold headNotWS
  cases hs : stripL cs with
  | nil => decide
  | cons a l =>
    rw [hs] at htr
    have hdw := dropWhile_headD cs
    rw [← htr] at hdw
    simpa using hdw

/-- The stripped list ends with a non-whitespace character. -/
theorem lastNotWS_strip (cs : List Char) : lastNotWS (stripL cs) = true := by
  unfold lastNotWS
  have h0 : stripL cs = ((cs.dropWhile pyIsSpace).reverse.dropWhile pyIsSpace).reverse := rfl
  rw [h0, List.getLastD_eq_getLast?, List.getLast?_reverse, ← List.headD_eq_head?]
  simpa using dropWhile_headD (cs.dropWhile pyIsSpace).reverse

/-- Stripping is the identity on lists with non-whitespace ends. -/
theorem strip_id {u : List Char} (h1 : headNotWS u = true) (h2 : lastNotWS u = true) :
    stripL u = u := by
  have hd : u.dropWhile pyIsSpace = u := by
    cases u with
    | nil => rfl
    | cons a l =>
      have ha : pyIsSpace a = false := by
        unfold headNotWS at h1
        simpa using h1
      rw [List.dropWhile_cons, if_neg (by simp [ha])]
  have hr : u.reverse.dropWhile pyIsSpace = u.reverse := by
    rcases hu : u.reverse with _ | ⟨a, l⟩
    · rfl
    · have ha : pyIsSpace a = false := by
        unfold lastNotWS at h2
        have hh : u.getLastD 'x' = a := by
          rw [List.getLastD_eq_getLast?, ← List.head?_reverse, hu]
          rfl
        rw [hh] at h2
        simpa using h2
      rw [List.dropWhile_cons, if_neg (by simp [ha])]
  show ((u.dropWhile pyIsSpace).reverse.dropWhile pyIsSpace).reverse = u
  rw [hd, hr, List.reverse_reverse]

/-- Collapse output only contains plain spaces as whitespace. -/
theorem collapseAux_wsOnly : ∀ (cs : List Char) (b : Bool),
    wsOnlySpace (collapseAux cs b) = true := by
  intro cs
  induction cs with
  | nil => intro b; rfl
  | cons c cs ih =>
    intro b
    rw [collapseAux_cons]
    by_cases h : pyIsSpace c
    · rw [if_pos h]
      cases b with
      | true => exact ih true
      | false =>
        rw [if_neg (by simp)]
        have := ih true
        unfold wsOnlySpace at *
        rw [List.all_cons, this]
        decide
    · rw [if_neg h]
      have := ih false
      unfold wsOnlySpace at *
      rw [List.all_cons, this]
      have hc : pyIsSpace c = false := by
        cases hx : pyIsSpace c
        · rfl
        · exact absurd hx h
      simp [hc]

/-- Collapse with the flag set starts with a non-whitespace character. -/
theorem collapseAux_headTrue : ∀ (cs : List Char),
    headNotWS (collapseAux cs true) = true := by
  intro cs
  induction cs with
  | nil => decide
  | cons c cs ih =>
    rw [collapseAux_cons]
    by_cases h : pyIsSpace c
    · rw [if_pos h, if_pos rfl]
      exact ih
    · rw [if_neg h]
      unfold headNotWS
      have hc : pyIsSpace c = false := by
        cases hx : pyIsSpace c
        · rfl
        · exact absurd hx h
      simpa using hc

/-- Collapse output has no adjacent whitespace. -/
theorem collapseAux_noAdj : ∀ (cs : List Char) (b : Bool),
    noAdjWS (collapseAux cs b) = true := by
  intro cs
  induction cs with
  | nil => intro b; rfl
  | cons c cs ih =>
    intro b
    rw [collapseAux_cons]
    by_cases h : pyIsSpace c
    · rw [if_pos h]
      cases b with
      | true => exact ih true
      | false =>
        rw [if_neg (by simp)]
        refine (noAdjWS_cons ' ' (collapseAux cs true)).mpr ⟨ih true, fun _ => ?_⟩
        have := collapseAux_headTrue cs
        unfold headNotWS at this
        simpa using this
    · rw [if_neg h]
      refine (noAdjWS_cons c (collapseAux cs false)).mpr ⟨ih false, fun hc => ?_⟩
      exact absurd hc h

/-- Collapse preserves a non-whitespace first character. -/
theorem collapseAux_head (cs : List Char) (h : headNotWS cs = true) :
    headNotWS (collapseAux cs false) = true := by
  cases cs with
  | nil => decide
  | cons c cs =>
    have hc : pyIsSpace c = false := by
      unfold headNotWS at h
      simpa using h
    rw [collapseAux_cons, if_neg (by simp [hc])]
    unfold headNotWS
    simpa using hc

/-- A list whose last character is not whitespace contains a
non-whitespace character. -/
theorem exists_notWS_of_last {cs : List Char} (hne : cs ≠ [])
    (h : lastNotWS cs = true) : ∃ c ∈ cs, pyIsSpace c = false := by
  refine ⟨cs.getLastD 'x', getLastD_mem hne 'x', ?_⟩
  unfold lastNotWS at h
  simpa using h

/-- Collapse of a list with some non-whitespace character is nonempty. -/
theorem collapseAux_ne_nil : ∀ (cs : List Char) (b : Bool),
    (∃ c ∈ cs, pyIsSpace c = false) → collapseAux cs b ≠ [] := by
  intro cs
  induction cs with
  | nil =>
    intro b h
    obtain ⟨c, hc, _⟩ := h
    cases hc
  | cons c cs ih =>
    intro b h
    rw [collapseAux_cons]
    by_cases hc : pyIsSpace c
    · rw [if_pos hc]
      have hcs : ∃ d ∈ cs, pyIsSpace d = false := by
        obtain ⟨d, hd, hdns⟩ := h
        rcases List.mem_cons.mp hd with rfl | hd2
        · rw [hdns] at hc; cases hc
        · exact ⟨d, hd2, hdns⟩
      cases b with
      | true => exact ih true hcs
      | false => rw [if_neg (by simp)]; simp
    · rw [if_neg hc]
      simp

/-- Collapse preserves a non-whitespace last character. -/
theorem collapseAux_last : ∀ (cs : List Char) (b : Bool),
    lastNotWS cs = true → lastNotWS (collapseAux cs b) = true := by
  intro cs
  induction cs with
  | nil =>
    intro b _
    show lastNotWS [] = true
    decide
  | cons c cs ih =>
    intro b h
    have hlast : cs ≠ [] → lastNotWS cs = true := by
      intro hne
      unfold lastNotWS at h ⊢
      rw [List.getLastD_cons] at h
      rw [getLastD_irrel hne 'x' c]
      exact h
    rw [collapseAux_cons]
    by_cases hc : pyIsSpace c
    · have hne : cs ≠ [] := by
        intro hcs
        subst hcs
        unfold lastNotWS at h
        simp [List.getLastD] at h
        rw [hc] at h
        cases h
      have hZne : collapseAux cs true ≠ [] :=
        collapseAux_ne_nil cs true (exists_notWS_of_last hne (hlast hne))
      rw [if_pos hc]
      cases b with
      | true => exact ih true (hlast hne)
      | false =>
        rw [if_neg (by simp)]
        unfold lastNotWS
        rw [List.getLastD_cons, getLastD_irrel hZne ' ' 'x']
        exact ih true (hlast hne)
    · rw [if_neg hc]
      cases hcs : cs with
      | nil =>
        subst hcs
        show lastNotWS [c] = true
        unfold lastNotWS at h ⊢
        simpa using h
      | cons d r =>
        have hne : cs ≠ [] := by rw [hcs]; simp
        rw [← hcs]
        have hZne : collapseAux cs false ≠ [] := by
          refine collapseAux_ne_nil cs false (exists_notWS_of_last hne (hlast hne))
        unfold lastNotWS
        rw [List.getLastD_cons, getLastD_irrel hZne c 'x']
        exact ih false (hlast hne)

/-- Collapse is the identity on lists in whitespace normal form. -/
theorem collapse_id : ∀ (u : List Char), wsOnlySpace u = true → noAdjWS u = true →
    collapseAux u false = u ∧ (headNotWS u = true → collapseAux u true = u) := by
  intro u
  induction u with
  | nil => intro _ _; exact ⟨rfl, fun _ => rfl⟩
  | cons c cs ih =>
    intro hws hadj
    have hws2 : wsOnlySpace cs = true := by
      unfold wsOnlySpace at hws
      rw [List.all_cons] at hws
      exact (Bool.and_eq_true_iff.mp hws).2
    have hwsc : (!pyIsSpace c || c == ' ') = true := by
      unfold wsOnlySpace at hws
      rw [List.all_cons] at hws
      exact (Bool.and_eq_true_iff.mp hws).1
    obtain ⟨hadj2, hadjc⟩ := (noAdjWS_cons c cs).mp hadj
    obtain ⟨ihf, iht⟩ := ih hws2 hadj2
    by_cases hc : pyIsSpace c = true
    · have hcsp : c = ' ' := by
        rcases Bool.or_eq_true_iff.mp hwsc with h | h
        · rw [hc] at h; cases h
        · simpa using h
      have hcshead : headNotWS cs = true := by
        unfold headNotWS
        simpa using hadjc hc
      constructor
      · rw [collapseAux_cons, if_pos hc, if_neg (by simp), iht hcshead, hcsp]
      · intro hhead
        unfold headNotWS at hhead
        rw [show (c :: cs).headD 'x' = c from rfl, hc] at hhead
        cases hhead
    · have hcf : pyIsSpace c = false := by
        cases hx : pyIsSpace c
        · rfl
        · exact absurd hx hc
      constructor
      · rw [collapseAux_cons, if_neg (by simp [hcf]), ihf]
      · intro _
        rw [collapseAux_cons, if_neg (by simp [hcf]), ihf]

/-- Insertion preserves emptiness. -/
theorem InsSp.nil_iff {cs ds : List Char} (h : InsSp cs ds) : cs = [] ↔ ds = [] := by
  cases h <;> simp

/-- Insertion preserves the first character. -/
theorem InsSp.headD {cs ds : List Char} (h : InsSp cs ds) :
    ds.headD 'x' = cs.headD 'x' := by
  cases h <;> rfl

/-- Insertion preserves the last character. -/
theorem InsSp.getLastD {cs ds : List Char} (h : InsSp cs ds) :
    ∀ d, ds.getLastD d = cs.getLastD d := by
  induction h with
  | nil => intro d; rfl
  | cons c h ih =>
    intro d
    rename_i cs2 ds2
    rw [List.getLastD_cons, List.getLastD_cons]
    by_cases hne : cs2 = []
    · subst hne
      rw [(h.nil_iff).mp rfl]
    · have hds : ds2 ≠ [] := fun hd => hne ((h.nil_iff).mpr hd)
      rw [getLastD_irrel hds c 'x', getLastD_irrel hne c 'x']
      exact ih 'x'
  | ins x y hx hy h ih =>
    intro d
    rename_i cs2 ds2
    rw [List.getLastD_cons, List.getLastD_cons, List.getLastD_cons, List.getLastD_cons,
      List.getLastD_cons]
    by_cases hne : cs2 = []
    · subst hne
      rw [(h.nil_iff).mp rfl]
    · have hds : ds2 ≠ [] := fun hd => hne ((h.nil_iff).mpr hd)
      rw [getLastD_irrel hds y 'x', getLastD_irrel hne y 'x']
      exact ih 'x'

/-- Insertion preserves the space-only-whitespace property. -/
theorem InsSp.wsOnly {cs ds : List Char} (h : InsSp cs ds)
    (hws : wsOnlySpace cs = true) : wsOnlySpace ds = true := by
  induction h with
  | nil => rfl
  | cons c h ih =>
    unfold wsOnlySpace at *
    rw [List.all_cons] at hws ⊢
    exact Bool.and_eq_true_iff.mpr
      ⟨(Bool.and_eq_true_iff.mp hws).1, ih (Bool.and_eq_true_iff.mp hws).2⟩
  | ins x y hx hy h ih =>
    unfold wsOnlySpace at *
    rw [List.all_cons, List.all_cons] at hws
    rw [List.all_cons, List.all_cons, List.all_cons]
    have hA := Bool.and_eq_true_iff.mp hws
    have hB := Bool.and_eq_true_iff.mp hA.2
    rw [hA.1, hB.1, ih hB.2]
    decide

/-- Insertion preserves absence of adjacent whitespace. -/
theorem InsSp.noAdj {cs ds : List Char} (h : InsSp cs ds)
    (hadj : noAdjWS cs = true) : noAdjWS ds = true := by
  induction h with
  | nil => rfl
  | cons c h ih =>
    obtain ⟨h1, h2⟩ := (noAdjWS_cons _ _).mp hadj
    refine (noAdjWS_cons _ _).mpr ⟨ih h1, fun hc => ?_⟩
    rw [h.headD]
    exact h2 hc
  | ins x y hx hy h ih =>
    obtain ⟨h1, h2⟩ := (noAdjWS_cons _ _).mp hadj
    obtain ⟨h3, h4⟩ := (noAdjWS_cons _ _).mp h1
    refine (noAdjWS_cons _ _).mpr ⟨?_, fun hc => by rw [hx] at hc; cases hc⟩
    refine (noAdjWS_cons _ _).mpr ⟨?_, fun _ => by simpa using hy⟩
    refine (noAdjWS_cons _ _).mpr ⟨ih h3, fun hc => ?_⟩
    rw [h.headD]
    exact h4 hc

/-- Insertion preserves the whitespace normal form. -/
theorem InsSp.normSpaced {cs ds : List Char} (h : InsSp cs ds)
    (hn : Coupon.normSpaced cs = true) : Coupon.normSpaced ds = true := by
  unfold Coupon.normSpaced at hn ⊢
  have h1 : wsOnlySpace cs = true := by
    rcases Bool.and_eq_true_iff.mp hn with ⟨a, _⟩
    rcases Bool.and_eq_true_iff.mp a with ⟨b, _⟩
    exact (Bool.and_eq_true_iff.mp b).1
  have h2 : noAdjWS cs = true := by
    rcases Bool.and_eq_true_iff.mp hn with ⟨a, _⟩
    rcases Bool.and_eq_true_iff.mp a with ⟨b, _⟩
    exact (Bool.and_eq_true_iff.mp b).2
  have h3 : headNotWS cs = true := by
    rcases Bool.and_eq_true_iff.mp hn with ⟨a, _⟩
    exact (Bool.and_eq_true_iff.mp a).2
  have h4 : lastNotWS cs = true := (Bool.and_eq_true_iff.mp hn).2
  have g1 := h.wsOnly h1
  have g2 := h.noAdj h2
  have g3 : headNotWS ds = true := by
    unfold headNotWS at h3 ⊢
    rw [h.headD]
    exact h3
  have g4 : lastNotWS ds = true := by
    unfold lastNotWS at h4 ⊢
    rw [h.getLastD]
    exact h4
  rw [g1, g2, g3, g4]
  rfl

/-- Digits are not whitespace. -/
theorem digit_not_ws {c : Char} (h : pyIsDigit c = true) : pyIsSpace c = false := by
  have := char_isDigit_iff.mp h
  exact notSpace_of_ge (by omega)

/-- The percent substitution only inserts spaces between non-whitespace
characters. -/
theorem insSp_subDigitPercent : ∀ (cs : List Char), InsSp cs (subDigitPercent cs)
  | [] => InsSp.nil
  | [c] => InsSp.cons c InsSp.nil
  | c :: d :: cs => by
    show InsSp (c :: d :: cs) (if pyIsDigit c && d == '%' then
      c :: ' ' :: '%' :: subDigitPercent cs else c :: subDigitPercent (d :: cs))
    by_cases h : pyIsDigit c && d == '%'
    · rw [if_pos h]
      have hc : pyIsDigit c = true := (Bool.and_eq_true_iff.mp h).1
      have hd : d = '%' := by simpa using (Bool.and_eq_true_iff.mp h).2
      subst hd
      exact InsSp.ins c '%' (digit_not_ws hc) (by decide) (insSp_subDigitPercent cs)
    · rw [if_neg h]
      exact InsSp.cons c (insSp_subDigitPercent (d :: cs))

/-- The currency substitution only inserts spaces between non-whitespace
characters. -/
theorem insSp_subCurrencyDigit : ∀ (cs : List Char), InsSp cs (subCurrencyDigit cs) := by
  have H : ∀ (n : ℕ) (cs : List Char), cs.length ≤ n → InsSp cs (subCurrencyDigit cs) := by
    intro n
    induction n with
    | zero =>
      intro cs hlen
      have hnil : cs = [] := by
        cases cs
        · rfl
        · simp at hlen
      subst hnil
      exact InsSp.nil
    | succ n ih =>
      intro cs hlen
      rcases cs with _ | ⟨c, rest⟩
      · exact InsSp.nil
      by_cases hc1 : c = '₹'
      · subst hc1
        rcases rest with _ | ⟨d, cs2⟩
        · exact InsSp.cons '₹' InsSp.nil
        rw [subCurrencyDigit.eq_2]
        by_cases h : pyIsDigit d = true
        · rw [if_pos h]
          exact InsSp.ins '₹' d (by decide) (digit_not_ws h)
            (ih cs2 (by simp at hlen; omega))
        · rw [if_neg h]
          exact InsSp.cons '₹' (ih (d :: cs2) (by simp at hlen ⊢; omega))
      by_cases hc2 : c = 'R'
      · subst hc2
        rcases rest with _ | ⟨c1, rest1⟩
        · exact InsSp.cons 'R' InsSp.nil
        by_cases hs : c1 = 's'
        · subst hs
          rcases rest1 with _ | ⟨c2, rest2⟩
          · exact InsSp.cons 'R' (InsSp.cons 's' InsSp.nil)
          by_cases hdot : c2 = '.'
          · subst hdot
            rcases rest2 with _ | ⟨d, cs3⟩
            · exact InsSp.cons 'R' (InsSp.cons 's' (InsSp.cons '.' InsSp.nil))
            rw [subCurrencyDigit.eq_3]
            by_cases h : pyIsDigit d = true
            · rw [if_pos h]
              exact InsSp.cons 'R' (InsSp.cons 's'
                (InsSp.ins '.' d (by decide) (digit_not_ws h)
                  (ih cs3 (by simp at hlen; omega))))
            · rw [if_neg h]
              exact InsSp.cons 'R'
                (ih ('s' :: '.' :: d :: cs3) (by simp at hlen ⊢; omega))
          · rw [subCurrencyDigit.eq_4 c2 rest2 (fun _ _ h _ => hdot h)]
            by_cases h : pyIsDigit c2 = true
            · rw [if_pos h]
              exact InsSp.cons 'R' (InsSp.ins 's' c2 (by decide) (digit_not_ws h)
                (ih rest2 (by simp at hlen; omega)))
            · rw [if_neg h]
              exact InsSp.cons 'R' (ih ('s' :: c2 :: rest2) (by simp at hlen ⊢; omega))
        · rw [subCurrencyDigit.eq_5 'R' (c1 :: rest1)
            (fun _ _ h _ => absurd h (by decide))
            (fun _ _ _ h => hs (List.cons.inj h).1)
            (fun _ _ _ h => hs (List.cons.inj h).1)]
          exact InsSp.cons 'R' (ih (c1 :: rest1) (by simp at hlen ⊢; omega))
      · rw [subCurrencyDigit.eq_5 c rest
          (fun _ _ h _ => hc1 h) (fun _ _ h _ => hc2 h) (fun _ _ h _ => hc2 h)]
        exact InsSp.cons c (ih rest (by simp at hlen ⊢; omega))
  exact fun cs => H cs.length cs le_rfl

/-- Unfolding of the whitespace normal form into its four components. -/
theorem normSpaced_iff {u : List Char} : normSpaced u = true ↔
    wsOnlySpace u = true ∧ noAdjWS u = true ∧ headNotWS u = true ∧ lastNotWS u = true := by
  unfold normSpaced
  rw [Bool.and_eq_true, Bool.and_eq_true, Bool.and_eq_true]
  tauto

/-- Strip followed by collapse lands in the whitespace normal form. -/
theorem normSpaced_collapse_strip (cs : List Char) :
    normSpaced (collapseL (stripL cs)) = true := by
  refine normSpaced_iff.mpr ⟨collapseAux_wsOnly _ _, collapseAux_noAdj _ _,
    collapseAux_head _ (headNotWS_strip cs), collapseAux_last _ _ (lastNotWS_strip cs)⟩

/-- Strip followed by collapse is the identity on the normal form. -/
theorem strip_collapse_id {u : List Char} (h : normSpaced u = true) :
    collapseL (stripL u) = u := by
  obtain ⟨hws, hadj, hhead, hlast⟩ := normSpaced_iff.mp h
  rw [strip_id hhead hlast]
  exact (collapse_id u hws hadj).1

/-- A list without whitespace has no adjacent whitespace. -/
theorem noAdjWS_of_noWS : ∀ (cs : List Char), (∀ c ∈ cs, pyIsSpace c = false) →
    noAdjWS cs = true
  | [], _ => rfl
  | a :: l, h => (noAdjWS_cons a l).mpr
      ⟨noAdjWS_of_noWS l (fun c hc => h c (List.mem_cons_of_mem a hc)),
       fun ha => absurd ((h a (List.mem_cons_self a l)).symm.trans ha) (by decide)⟩

/-- A list without whitespace is in the whitespace normal form. -/
theorem normSpaced_of_noWS (cs : List Char) (h : ∀ c ∈ cs, pyIsSpace c = false) :
    normSpaced cs = true := by
  refine normSpaced_iff.mpr ⟨?_, noAdjWS_of_noWS cs h, ?_, ?_⟩
  · unfold wsOnlySpace
    rw [List.all_eq_true]
    intro c hc
    rw [h c hc]
    rfl
  · unfold headNotWS
    cases cs with
    | nil => decide
    | cons a l =>
      rw [show (a :: l).headD 'x' = a from rfl, h a (List.mem_cons_self a l)]
      rfl
  · unfold lastNotWS
    cases hcs : cs with
    | nil => decide
    | cons a l =>
      have hne : cs ≠ [] := by rw [hcs]; simp
      rw [← hcs, h _ (getLastD_mem hne 'x')]
      rfl

/-- The code branch is idempotent. -/
theorem postCodeL_idem (cs : List Char) : postCodeL (postCodeL cs) = postCodeL cs := by
  unfold postCodeL
  have hmem : ∀ x ∈ (cs.map Char.toUpper).filter isUpperDigit, isUpperDigit x = true :=
    fun x hx => List.of_mem_filter hx
  have h1 : ∀ x ∈ (cs.map Char.toUpper).filter isUpperDigit, Char.toUpper x = id x :=
    fun x hx => toUpper_of_upperDigit (hmem x hx)
  rw [List.map_congr_left h1, List.map_id, List.filter_eq_self.mpr hmem]

/-- Unfolding of the description branch. -/
theorem postDescriptionL_eq (cs : List Char) :
    postDescriptionL cs = match collapseL (stripL cs) with
      | [] => collapseL (stripL cs)
      | c :: rest => c.toUpper :: rest := rfl

/-- Uppercasing the first character preserves the whitespace normal form. -/
theorem normSpaced_upperFirst {c : Char} {rest : List Char}
    (h : normSpaced (c :: rest) = true) : normSpaced (c.toUpper :: rest) = true := by
  obtain ⟨hws, hadj, hhead, hlast⟩ := normSpaced_iff.mp h
  have hc : pyIsSpace c = false := by
    unfold headNotWS at hhead
    simpa using hhead
  have hcu : pyIsSpace c.toUpper = false := by rw [pyIsSpace_toUpper]; exact hc
  refine normSpaced_iff.mpr ⟨?_, ?_, ?_, ?_⟩
  · unfold wsOnlySpace at hws ⊢
    rw [List.all_cons] at hws ⊢
    rw [Bool.and_eq_true] at hws ⊢
    exact ⟨by rw [hcu]; rfl, hws.2⟩
  · refine (noAdjWS_cons _ _).mpr ⟨((noAdjWS_cons _ _).mp hadj).1, fun hx => ?_⟩
    exact absurd (hcu.symm.trans hx) (by decide)
  · unfold headNotWS
    rw [show (c.toUpper :: rest).headD 'x' = c.toUpper from rfl, hcu]
    rfl
  · unfold lastNotWS at hlast ⊢
    cases hr : rest with
    | nil =>
      rw [show (c.toUpper :: []).getLastD 'x' = c.toUpper from rfl]
      rw [hr, show (c :: []).getLastD 'x' = c from rfl] at hlast
      rw [pyIsSpace_toUpper]
      exact hlast
    | cons b r =>
      have hne : rest ≠ [] := by rw [hr]; simp
      rw [← hr, List.getLastD_cons, getLastD_irrel hne c.toUpper 'x']
      rw [List.getLastD_cons, getLastD_irrel hne c 'x'] at hlast
      exact hlast

/-- The description branch is idempotent. -/
theorem postDescriptionL_idem (cs : List Char) :
    postDescriptionL (postDescriptionL cs) = postDescriptionL cs := by
  have hn := normSpaced_collapse_strip cs
  rcases ht : collapseL (stripL cs) with _ | ⟨c, rest⟩
  · have h1 : postDescriptionL cs = [] := by rw [postDescriptionL_eq, ht]
    rw [h1]
    rfl
  · have h1 : postDescriptionL cs = c.toUpper :: rest := by rw [postDescriptionL_eq, ht]
    rw [h1, postDescriptionL_eq]
    rw [ht] at hn
    have hn2 : normSpaced (c.toUpper :: rest) = true := normSpaced_upperFirst hn
    obtain ⟨hws, hadj, hhead, hlast⟩ := normSpaced_iff.mp hn2
    have hs : stripL (c.toUpper :: rest) = c.toUpper :: rest := strip_id hhead hlast
    have hcl : collapseL (c.toUpper :: rest) = c.toUpper :: rest := (collapse_id _ hws hadj).1
    rw [hs, hcl]
    show c.toUpper.toUpper :: rest = c.toUpper :: rest
    rw [toUpper_toUpper]

/-- Characterization of `noDigitPercent` on cons. -/
theorem noDigitPercent_cons (c : Char) (cs : List Char) :
    noDigitPercent (c :: cs) =
      (!(pyIsDigit c && cs.headD 'x' == '%') && noDigitPercent cs) := by
  cases cs with
  | nil => simp [noDigitPercent]
  | cons d r => rfl

/-- The percent substitution's head agrees with its input's head. -/
theorem subDigitPercent_headD (cs : List Char) :
    (subDigitPercent cs).headD 'x' = cs.headD 'x' :=
  (insSp_subDigitPercent cs).headD

/-- The output of the percent substitution has no remaining digit-percent
adjacency. -/
theorem noDigitPercent_subDigitPercent : ∀ (cs : List Char),
    noDigitPercent (subDigitPercent cs) = true
  | [] => rfl
  | [c] => rfl
  | c :: d :: cs => by
    show noDigitPercent (if pyIsDigit c && d == '%' then
      c :: ' ' :: '%' :: subDigitPercent cs else c :: subDigitPercent (d :: cs)) = true
    by_cases h : pyIsDigit c && d == '%'
    · rw [if_pos h]
      rw [noDigitPercent_cons, noDigitPercent_cons, noDigitPercent_cons]
      rw [noDigitPercent_subDigitPercent cs]
      simp
      exact ⟨by decide, Or.inl (by decide)⟩
    · rw [if_neg h]
      rw [noDigitPercent_cons, subDigitPercent_headD, noDigitPercent_subDigitPercent (d :: cs)]
      have hf : (pyIsDigit c && ((d :: cs).headD 'x' == '%')) = false := by
        cases hx : (pyIsDigit c && ((d :: cs).headD 'x' == '%'))
        · rfl
        · exact absurd hx h
      rw [hf]
      rfl

/-- The percent substitution is the identity when its pattern is absent. -/
theorem subDigitPercent_of_noDigitPercent : ∀ (cs : List Char),
    noDigitPercent cs = true → subDigitPercent cs = cs
  | [], _ => rfl
  | [c], _ => rfl
  | c :: d :: cs, h => by
    have h2 := h
    rw [noDigitPercent_cons, Bool.and_eq_true] at h2
    have hf : (pyIsDigit c && (d == '%')) = false := by
      have := h2.1
      rw [show (d :: cs).headD 'x' = d from rfl] at this
      cases hx : (pyIsDigit c && (d == '%'))
      · rfl
      · rw [hx] at this; cases this
    show (if pyIsDigit c && d == '%' then
      c :: ' ' :: '%' :: subDigitPercent cs else c :: subDigitPercent (d :: cs)) = c :: d :: cs
    rw [if_neg (by rw [hf]; exact Bool.false_ne_true),
      subDigitPercent_of_noDigitPercent (d :: cs) h2.2]

/-- Space insertion cannot create a digit-percent adjacency. -/
theorem InsSp.noDigitPercent {cs ds : List Char} (h : InsSp cs ds)
    (hnd : Coupon.noDigitPercent cs = true) : Coupon.noDigitPercent ds = true := by
  induction h with
  | nil => rfl
  | cons c h ih =>
    rw [noDigitPercent_cons, Bool.and_eq_true] at hnd ⊢
    refine ⟨?_, ih hnd.2⟩
    rw [h.headD]
    exact hnd.1
  | ins x y hx hy h ih =>
    rename_i cs2 ds2
    rw [noDigitPercent_cons, Bool.and_eq_true] at hnd
    have hnd2 := hnd.2
    rw [noDigitPercent_cons, Bool.and_eq_true] at hnd2
    rw [noDigitPercent_cons, Bool.and_eq_true]
    refine ⟨by simp, ?_⟩
    rw [noDigitPercent_cons, Bool.and_eq_true]
    refine ⟨by simp [pyIsDigit, pyIsSpace] at *, ?_⟩
    rw [noDigitPercent_cons, Bool.and_eq_true]
    refine ⟨?_, ih hnd2.2⟩
    rw [h.headD]
    exact hnd2.1

/-- Unfolding of `hasCurrencyPat` on cons. -/
theorem hasCurrencyPat_cons (c : Char) (cs : List Char) :
    hasCurrencyPat (c :: cs) = (matchCurrencyAt (c :: cs) || hasCurrencyPat cs) := rfl

/-- A boolean that is not true is false. -/
theorem bool_eq_false {b : Bool} (h : ¬ b = true) : b = false := by
  cases b
  · rfl
  · exact absurd rfl h

/-- No currency pattern starts at a character other than the markers. -/
theorem matchCurrencyAt_other {c : Char} (h1 : c ≠ '₹') (h2 : c ≠ 'R') (cs : List Char) :
    matchCurrencyAt (c :: cs) = false := by
  rw [matchCurrencyAt.eq_def]
  split
  · rename_i d t heq
    exact absurd (List.cons.inj heq).1 h1
  · rename_i d t heq
    exact absurd (List.cons.inj heq).1 h2
  · rename_i d t hno heq
    exact absurd (List.cons.inj heq).1 h2
  · rfl

/-- The currency test after a rupee sign is a digit test on the head. -/
theorem matchCurrencyAt_rupee (X : List Char) :
    matchCurrencyAt ('₹' :: X) = pyIsDigit (X.headD 'x') := by
  cases X with
  | nil => decide
  | cons d t => rfl

/-- The currency test after `Rs.` is a digit test on the head. -/
theorem matchCurrencyAt_rs_dot (X : List Char) :
    matchCurrencyAt ('R' :: 's' :: '.' :: X) = pyIsDigit (X.headD 'x') := by
  cases X with
  | nil => decide
  | cons d t => rfl

/-- The currency test after `Rs` not followed by a dot is a digit test on
the head. -/
theorem matchCurrencyAt_rs_other (X : List Char) (h : X.headD 'x' ≠ '.') :
    matchCurrencyAt ('R' :: 's' :: X) = pyIsDigit (X.headD 'x') := by
  cases X with
  | nil => decide
  | cons d t =>
    rw [matchCurrencyAt.eq_def]
    split
    · rename_i d2 t2 heq
      exact absurd (List.cons.inj heq).1 (by decide)
    · rename_i d2 t2 heq
      have hd : d = '.' := (List.cons.inj (List.cons.inj (List.cons.inj heq).2).2).1
      exact absurd hd h
    · rename_i d2 t2 hno heq
      have hd : d = d2 := (List.cons.inj (List.cons.inj (List.cons.inj heq).2).2).1
      rw [show ((d :: t).headD 'x') = d from rfl, hd]
    · rename_i hno1 hno2 hno3
      exact ((hno3 d t rfl).elim)

/-- No currency pattern starts at `R` when no `s` follows. -/
theorem matchCurrencyAt_r_other (X : List Char) (h : X.headD 'x' ≠ 's') :
    matchCurrencyAt ('R' :: X) = false := by
  cases X with
  | nil => decide
  | cons c1 t =>
    rw [matchCurrencyAt.eq_def]
    split
    · rename_i d2 t2 heq
      exact absurd (List.cons.inj heq).1 (by decide)
    · rename_i d2 t2 heq
      exact absurd (List.cons.inj (List.cons.inj heq).2).1 h
    · rename_i d2 t2 hno heq
      exact absurd (List.cons.inj (List.cons.inj heq).2).1 h
    · rfl

/-- Digits are not the rupee sign. -/
theorem digit_ne_rupee {c : Char} (h : pyIsDigit c = true) : c ≠ '₹' := by
  intro hc
  subst hc
  exact absurd h (by decide)

/-- Digits are not `R`. -/
theorem digit_ne_r {c : Char} (h : pyIsDigit c = true) : c ≠ 'R' := by
  intro hc
  subst hc
  exact absurd h (by decide)

/-- The currency substitution's head agrees with its input's head. -/
theorem subCurrencyDigit_headD (cs : List Char) :
    (subCurrencyDigit cs).headD 'x' = cs.headD 'x' :=
  (insSp_subCurrencyDigit cs).headD

/-- The output of the currency substitution has no remaining
marker-digit adjacency. -/
theorem noCurrency_subCurrencyDigit : ∀ (cs : List Char),
    hasCurrencyPat (subCurrencyDigit cs) = false := by
  have H : ∀ (n : ℕ) (cs : List Char), cs.length ≤ n →
      hasCurrencyPat (subCurrencyDigit cs) = false := by
    intro n
    induction n with
    | zero =>
      intro cs hlen
      have hnil : cs = [] := by
        cases cs
        · rfl
        · simp at hlen
      subst hnil
      rfl
    | succ n ih =>
      intro cs hlen
      rcases cs with _ | ⟨c, rest⟩
      · rfl
      by_cases hc1 : c = '₹'
      · subst hc1
        rcases rest with _ | ⟨d, cs2⟩
        · decide
        rw [subCurrencyDigit.eq_2]
        by_cases h : pyIsDigit d = true
        · rw [if_pos h]
          rw [hasCurrencyPat_cons, hasCurrencyPat_cons, hasCurrencyPat_cons]
          rw [matchCurrencyAt_rupee (' ' :: d :: subCurrencyDigit cs2)]
          rw [matchCurrencyAt_other (c := ' ') (by decide) (by decide) (d :: subCurrencyDigit cs2)]
          rw [matchCurrencyAt_other (digit_ne_rupee h) (digit_ne_r h) (subCurrencyDigit cs2)]
          rw [ih cs2 (by simp at hlen; omega)]
          rw [show ((' ' :: d :: subCurrencyDigit cs2).headD 'x') = ' ' from rfl]
          decide
        · rw [if_neg h]
          rw [hasCurrencyPat_cons, matchCurrencyAt_rupee (subCurrencyDigit (d :: cs2))]
          have hh : (subCurrencyDigit (d :: cs2)).headD 'x' = d := by
            rw [subCurrencyDigit_headD]
            rfl
          rw [hh, bool_eq_false h, ih (d :: cs2) (by simp at hlen ⊢; omega)]
          rfl
      by_cases hc2 : c = 'R'
      · subst hc2
        rcases rest with _ | ⟨c1, rest1⟩
        · decide
        by_cases hs : c1 = 's'
        · subst hs
          rcases rest1 with _ | ⟨c2, rest2⟩
          · decide
          by_cases hdot : c2 = '.'
          · subst hdot
            rcases rest2 with _ | ⟨d, cs3⟩
            · decide
            rw [subCurrencyDigit.eq_3]
            by_cases h : pyIsDigit d = true
            · rw [if_pos h]
              rw [hasCurrencyPat_cons, hasCurrencyPat_cons, hasCurrencyPat_cons,
                hasCurrencyPat_cons, hasCurrencyPat_cons]
              rw [matchCurrencyAt_rs_dot (' ' :: d :: subCurrencyDigit cs3)]
              rw [matchCurrencyAt_other (c := 's') (by decide) (by decide)
                ('.' :: ' ' :: d :: subCurrencyDigit cs3)]
              rw [matchCurrencyAt_other (c := '.') (by decide) (by decide)
                (' ' :: d :: subCurrencyDigit cs3)]
              rw [matchCurrencyAt_other (c := ' ') (by decide) (by decide)
                (d :: subCurrencyDigit cs3)]
              rw [matchCurrencyAt_other (digit_ne_rupee h) (digit_ne_r h) (subCurrencyDigit cs3)]
              rw [ih cs3 (by simp at hlen; omega)]
              rw [show ((' ' :: d :: subCurrencyDigit cs3).headD 'x') = ' ' from rfl]
              decide
            · rw [if_neg h]
              have e1 : subCurrencyDigit ('s' :: '.' :: d :: cs3) =
                  's' :: subCurrencyDigit ('.' :: d :: cs3) :=
                subCurrencyDigit.eq_5 's' _ (fun _ _ hq _ => absurd hq (by decide))
                  (fun _ _ hq _ => absurd hq (by decide)) (fun _ _ hq _ => absurd hq (by decide))
              have e2 : subCurrencyDigit ('.' :: d :: cs3) =
                  '.' :: subCurrencyDigit (d :: cs3) :=
                subCurrencyDigit.eq_5 '.' _ (fun _ _ hq _ => absurd hq (by decide))
                  (fun _ _ hq _ => absurd hq (by decide)) (fun _ _ hq _ => absurd hq (by decide))
              have hh : (subCurrencyDigit (d :: cs3)).headD 'x' = d := by
                rw [subCurrencyDigit_headD]
                rfl
              rw [e1, e2]
              rw [hasCurrencyPat_cons, hasCurrencyPat_cons, hasCurrencyPat_cons]
              rw [matchCurrencyAt_rs_dot (subCurrencyDigit (d :: cs3)), hh, bool_eq_false h]
              rw [matchCurrencyAt_other (c := 's') (by decide) (by decide)
                ('.' :: subCurrencyDigit (d :: cs3))]
              rw [matchCurrencyAt_other (c := '.') (by decide) (by decide)
                (subCurrencyDigit (d :: cs3))]
              rw [ih (d :: cs3) (by simp at hlen ⊢; omega)]
              rfl
          · rw [subCurrencyDigit.eq_4 c2 rest2 (fun _ _ hq _ => hdot hq)]
            by_cases h : pyIsDigit c2 = true
            · rw [if_pos h]
              rw [hasCurrencyPat_cons, hasCurrencyPat_cons, hasCurrencyPat_cons,
                hasCurrencyPat_cons]
              rw [matchCurrencyAt_rs_other (' ' :: c2 :: subCurrencyDigit rest2) (by rw [List.headD_cons]; decide)]
              rw [matchCurrencyAt_other (c := 's') (by decide) (by decide)
                (' ' :: c2 :: subCurrencyDigit rest2)]
              rw [matchCurrencyAt_other (c := ' ') (by decide) (by decide)
                (c2 :: subCurrencyDigit rest2)]
              rw [matchCurrencyAt_other (digit_ne_rupee h) (digit_ne_r h) (subCurrencyDigit rest2)]
              rw [ih rest2 (by simp at hlen; omega)]
              rw [show ((' ' :: c2 :: subCurrencyDigit rest2).headD 'x') = ' ' from rfl]
              decide
            · rw [if_neg h]
              have e1 : subCurrencyDigit ('s' :: c2 :: rest2) =
                  's' :: subCurrencyDigit (c2 :: rest2) :=
                subCurrencyDigit.eq_5 's' _ (fun _ _ hq _ => absurd hq (by decide))
                  (fun _ _ hq _ => absurd hq (by decide)) (fun _ _ hq _ => absurd hq (by decide))
              have hh : (subCurrencyDigit (c2 :: rest2)).headD 'x' = c2 := by
                rw [subCurrencyDigit_headD]
                rfl
              rw [e1]
              rw [hasCurrencyPat_cons, hasCurrencyPat_cons]
              rw [matchCurrencyAt_rs_other (subCurrencyDigit (c2 :: rest2)) (by rw [hh]; exact hdot)]
              rw [hh, bool_eq_false h]
              rw [matchCurrencyAt_other (c := 's') (by decide) (by decide)
                (subCurrencyDigit (c2 :: rest2))]
              rw [ih (c2 :: rest2) (by simp at hlen ⊢; omega)]
              rfl
        · rw [subCurrencyDigit.eq_5 'R' (c1 :: rest1)
            (fun _ _ hq _ => absurd hq (by decide))
            (fun _ _ _ hq => hs (List.cons.inj hq).1)
            (fun _ _ _ hq => hs (List.cons.inj hq).1)]
          have hh : (subCurrencyDigit (c1 :: rest1)).headD 'x' = c1 := by
            rw [subCurrencyDigit_headD]
            rfl
          rw [hasCurrencyPat_cons]
          rw [matchCurrencyAt_r_other (subCurrencyDigit (c1 :: rest1)) (by rw [hh]; exact hs)]
          rw [ih (c1 :: rest1) (by simp at hlen ⊢; omega)]
          rfl
      · rw [subCurrencyDigit.eq_5 c rest
          (fun _ _ hq _ => hc1 hq) (fun _ _ hq _ => hc2 hq) (fun _ _ hq _ => hc2 hq)]
        rw [hasCurrencyPat_cons, matchCurrencyAt_other hc1 hc2 (subCurrencyDigit rest)]
        rw [ih rest (by simp at hlen ⊢; omega)]
        rfl
  exact fun cs => H cs.length cs le_rfl

/-- A false disjunction has false disjuncts. -/
theorem or_false_split {a b : Bool} (h : (a || b) = false) : a = false ∧ b = false := by
  cases a <;> cases b <;> simp_all

/-- The currency substitution is the identity when its pattern is absent. -/
theorem subCurrencyDigit_of_noCurrency : ∀ (cs : List Char),
    hasCurrencyPat cs = false → subCurrencyDigit cs = cs := by
  have H : ∀ (n : ℕ) (cs : List Char), cs.length ≤ n →
      hasCurrencyPat cs = false → subCurrencyDigit cs = cs := by
    intro n
    induction n with
    | zero =>
      intro cs hlen _
      have hnil : cs = [] := by
        cases cs
        · rfl
        · simp at hlen
      subst hnil
      rfl
    | succ n ih =>
      intro cs hlen h
      rcases cs with _ | ⟨c, rest⟩
      · rfl
      rw [hasCurrencyPat_cons] at h
      obtain ⟨h1, h2⟩ := or_false_split h
      by_cases hc1 : c = '₹'
      · subst hc1
        rcases rest with _ | ⟨d, cs2⟩
        · decide
        have hd : pyIsDigit d = false := by
          rw [matchCurrencyAt_rupee] at h1
          exact h1
        rw [subCurrencyDigit.eq_2, if_neg (by rw [hd]; exact Bool.false_ne_true)]
        rw [ih (d :: cs2) (by simp at hlen ⊢; omega) h2]
      by_cases hc2 : c = 'R'
      · subst hc2
        rcases rest with _ | ⟨c1, rest1⟩
        · decide
        by_cases hs : c1 = 's'
        · subst hs
          rcases rest1 with _ | ⟨c2, rest2⟩
          · decide
          by_cases hdot : c2 = '.'
          · subst hdot
            rcases rest2 with _ | ⟨d, cs3⟩
            · decide
            have hd : pyIsDigit d = false := by
              rw [matchCurrencyAt_rs_dot] at h1
              exact h1
            rw [subCurrencyDigit.eq_3, if_neg (by rw [hd]; exact Bool.false_ne_true)]
            rw [ih ('s' :: '.' :: d :: cs3) (by simp at hlen ⊢; omega) h2]
          · have hd : pyIsDigit c2 = false := by
              rw [matchCurrencyAt_rs_other (c2 :: rest2) hdot] at h1
              exact h1
            rw [subCurrencyDigit.eq_4 c2 rest2 (fun _ _ hq _ => hdot hq),
              if_neg (by rw [hd]; exact Bool.false_ne_true)]
            rw [ih ('s' :: c2 :: rest2) (by simp at hlen ⊢; omega) h2]
        · rw [subCurrencyDigit.eq_5 'R' (c1 :: rest1)
            (fun _ _ hq _ => absurd hq (by decide))
            (fun _ _ _ hq => hs (List.cons.inj hq).1)
            (fun _ _ _ hq => hs (List.cons.inj hq).1)]
          rw [ih (c1 :: rest1) (by simp at hlen ⊢; omega) h2]
      · rw [subCurrencyDigit.eq_5 c rest
          (fun _ _ hq _ => hc1 hq) (fun _ _ hq _ => hc2 hq) (fun _ _ hq _ => hc2 hq)]
        rw [ih rest (by simp at hlen ⊢; omega) h2]
  exact fun cs => H cs.length cs le_rfl

/-- The amount branch is idempotent. -/
theorem postAmountL_idem (cs : List Char) : postAmountL (postAmountL cs) = postAmountL cs := by
  unfold postAmountL
  have hy : normSpaced (collapseL (stripL cs)) = true := normSpaced_collapse_strip cs
  have h1 := insSp_subDigitPercent (collapseL (stripL cs))
  have h2 := insSp_subCurrencyDigit (subDigitPercent (collapseL (stripL cs)))
  have hw : normSpaced (subCurrencyDigit (subDigitPercent (collapseL (stripL cs)))) = true :=
    h2.normSpaced (h1.normSpaced hy)
  rw [strip_collapse_id hw]
  have hnd : noDigitPercent (subCurrencyDigit (subDigitPercent (collapseL (stripL cs)))) = true :=
    h2.noDigitPercent (noDigitPercent_subDigitPercent (collapseL (stripL cs)))
  rw [subDigitPercent_of_noDigitPercent _ hnd]
  exact subCurrencyDigit_of_noCurrency _
    (noCurrency_subCurrencyDigit (subDigitPercent (collapseL (stripL cs))))

/-- Date separators are not digits. -/
theorem isDateSep_not_digit {s : Char} (h : isDateSep s = true) : pyIsDigit s = false := by
  simp [isDateSep] at h
  rcases h with (h | h) | h <;> subst h <;> decide

/-- Date separators are not whitespace. -/
theorem isDateSep_not_ws {s : Char} (h : isDateSep s = true) : pyIsSpace s = false := by
  simp [isDateSep] at h
  rcases h with (h | h) | h <;> subst h <;> decide

/-- `takeWhile`/`dropWhile` on a satisfying prefix followed by a failing
character. -/
theorem takeWhile_append_stop {p : Char → Bool} :
    ∀ (r : List Char) (s : Char) (rest : List Char), (∀ c ∈ r, p c = true) → p s = false →
      (r ++ s :: rest).takeWhile p = r ∧ (r ++ s :: rest).dropWhile p = s :: rest
  | [], s, rest, _, hs => by
    constructor
    · rw [List.nil_append, List.takeWhile_cons, hs]
      rfl
    · rw [List.nil_append, List.dropWhile_cons, hs]
      rfl
  | c :: r, s, rest, hall, hs => by
    have hc : p c = true := hall c (List.mem_cons_self c r)
    have ih := takeWhile_append_stop r s rest (fun x hx => hall x (List.mem_cons_of_mem c hx)) hs
    constructor
    · rw [List.cons_append, List.takeWhile_cons, hc]
      simp only [if_true]
      rw [ih.1]
    · rw [List.cons_append, List.dropWhile_cons, hc]
      simp only [if_true]
      exact ih.2

/-- `takeWhile` keeps a list all of whose members satisfy the predicate. -/
theorem takeWhile_all {p : Char → Bool} : ∀ (l : List Char), (∀ c ∈ l, p c = true) →
    l.takeWhile p = l
  | [], _ => rfl
  | c :: l, h => by
    rw [List.takeWhile_cons, h c (List.mem_cons_self c l)]
    simp only [if_true]
    rw [takeWhile_all l (fun x hx => h x (List.mem_cons_of_mem c hx))]

/-- Structure of a successful `dateRun`. -/
theorem dateRun_spec {cs p rest : List Char} (h : dateRun cs = some (p, rest)) :
    ∃ r s, p = r ++ [s] ∧ (∀ c ∈ r, pyIsDigit c = true) ∧ (r.length = 1 ∨ r.length = 2) ∧
      isDateSep s = true ∧ cs = r ++ s :: rest := by
  unfold dateRun at h
  simp only at h
  by_cases hlen : (cs.takeWhile pyIsDigit).length = 1 ∨ (cs.takeWhile pyIsDigit).length = 2
  · rw [if_pos hlen] at h
    rcases hdrop : cs.dropWhile pyIsDigit with _ | ⟨s, rest2⟩
    · rw [hdrop] at h
      exact Option.noConfusion h
    · rw [hdrop] at h
      simp only at h
      by_cases hsep : isDateSep s = true
      · rw [if_pos hsep] at h
        have hinj := Option.some.inj h
        have hp : cs.takeWhile pyIsDigit ++ [s] = p := congrArg Prod.fst hinj
        have hr : rest2 = rest := congrArg Prod.snd hinj
        refine ⟨cs.takeWhile pyIsDigit, s, hp.symm,
          fun c hc => List.mem_takeWhile_imp hc, hlen, hsep, ?_⟩
        rw [← hr, ← hdrop]
        exact (List.takeWhile_append_dropWhile (p := pyIsDigit) (l := cs)).symm
      · rw [if_neg hsep] at h
        exact Option.noConfusion h
  · rw [if_neg hlen] at h
    exact Option.noConfusion h

/-- `dateRun` on a digit run followed by a separator. -/
theorem dateRun_mk (r : List Char) (s : Char) (rest : List Char)
    (hall : ∀ c ∈ r, pyIsDigit c = true) (hlen : r.length = 1 ∨ r.length = 2)
    (hsep : isDateSep s = true) :
    dateRun (r ++ s :: rest) = some (r ++ [s], rest) := by
  obtain ⟨ht, hd⟩ := takeWhile_append_stop r s rest hall (isDateSep_not_digit hsep)
  unfold dateRun
  simp only
  rw [ht, hd, if_pos hlen]
  simp only
  rw [if_pos hsep]

/-- Structure of a successful `matchDateAt`. -/
theorem matchDateAt_spec {cs m : List Char} (h : matchDateAt cs = some m) :
    ∃ r1 s1 r2 s2 r3, m = (r1 ++ [s1]) ++ (r2 ++ [s2]) ++ r3 ∧
      (∀ c ∈ r1, pyIsDigit c = true) ∧ (r1.length = 1 ∨ r1.length = 2) ∧ isDateSep s1 = true ∧
      (∀ c ∈ r2, pyIsDigit c = true) ∧ (r2.length = 1 ∨ r2.length = 2) ∧ isDateSep s2 = true ∧
      (∀ c ∈ r3, pyIsDigit c = true) ∧ 2 ≤ r3.length ∧ r3.length ≤ 4 := by
  unfold matchDateAt at h
  rcases h1 : dateRun cs with _ | ⟨p1, rest1⟩
  · rw [h1] at h
    exact Option.noConfusion h
  · rw [h1] at h
    simp only at h
    rcases h2 : dateRun rest1 with _ | ⟨p2, rest2⟩
    · rw [h2] at h
      exact Option.noConfusion h
    · rw [h2] at h
      simp only at h
      by_cases hc : 2 ≤ (rest2.takeWhile pyIsDigit).length
      · rw [if_pos hc] at h
        have hm := (Option.some.inj h).symm
        obtain ⟨r1, s1, hp1, hd1, hl1, hs1, _⟩ := dateRun_spec h1
        obtain ⟨r2, s2, hp2, hd2, hl2, hs2, _⟩ := dateRun_spec h2
        refine ⟨r1, s1, r2, s2, (rest2.takeWhile pyIsDigit).take 4, ?_, hd1, hl1, hs1,
          hd2, hl2, hs2, ?_, ?_, ?_⟩
        · rw [hm, hp1, hp2]
        · intro c hcm
          exact List.mem_takeWhile_imp (List.mem_of_mem_take hcm)
        · rw [List.length_take]
          omega
        · rw [List.length_take]
          omega
      · rw [if_neg hc] at h
        exact Option.noConfusion h

/-- `matchDateAt` on an assembled date. -/
theorem matchDateAt_mk (r1 r2 r3 : List Char) (s1 s2 : Char)
    (h1 : ∀ c ∈ r1, pyIsDigit c = true) (l1 : r1.length = 1 ∨ r1.length = 2)
    (e1 : isDateSep s1 = true)
    (h2 : ∀ c ∈ r2, pyIsDigit c = true) (l2 : r2.length = 1 ∨ r2.length = 2)
    (e2 : isDateSep s2 = true)
    (h3 : ∀ c ∈ r3, pyIsDigit c = true) (l3 : 2 ≤ r3.length) (l4 : r3.length ≤ 4) :
    matchDateAt (r1 ++ s1 :: (r2 ++ s2 :: r3)) = some ((r1 ++ [s1]) ++ (r2 ++ [s2]) ++ r3) := by
  unfold matchDateAt
  rw [dateRun_mk r1 s1 (r2 ++ s2 :: r3) h1 l1 e1]
  simp only
  rw [dateRun_mk r2 s2 r3 h2 l2 e2]
  simp only
  rw [takeWhile_all r3 h3, if_pos l3, List.take_of_length_le l4]

/-- Unfolding of `extractDateL` on cons. -/
theorem extractDateL_cons (c : Char) (cs : List Char) :
    extractDateL (c :: cs) = match matchDateAt (c :: cs) with
      | some m => some m
      | none => extractDateL cs := rfl

/-- Every successful extraction comes from a successful anchored match. -/
theorem extractDateL_spec : ∀ (cs : List Char) {m : List Char}, extractDateL cs = some m →
    ∃ cs2, matchDateAt cs2 = some m
  | [], m, h => Option.noConfusion h
  | c :: cs, m, h => by
    rw [extractDateL_cons] at h
    rcases hm : matchDateAt (c :: cs) with _ | x
    · rw [hm] at h
      simp only at h
      exact extractDateL_spec cs h
    · rw [hm] at h
      simp only at h
      exact ⟨c :: cs, by rw [hm, Option.some.inj h]⟩

/-- Unfolding of the expiry branch. -/
theorem postExpiryL_eq (cs : List Char) :
    postExpiryL cs = match extractDateL (collapseL (stripL cs)) with
      | some d => d
      | none => collapseL (stripL cs) := rfl

/-- Characters of a matched date are not whitespace. -/
theorem matchDate_noWS {cs m : List Char} (h : matchDateAt cs = some m) :
    ∀ c ∈ m, pyIsSpace c = false := by
  obtain ⟨r1, s1, r2, s2, r3, hm, hd1, _, hs1, hd2, _, hs2, hd3, _, _⟩ := matchDateAt_spec h
  subst hm
  intro c hc
  rcases List.mem_append.mp hc with hc | hc
  · rcases List.mem_append.mp hc with hc | hc
    · rcases List.mem_append.mp hc with hc | hc
      · exact digit_not_ws (hd1 c hc)
      · rw [List.mem_singleton.mp hc]
        exact isDateSep_not_ws hs1
    · rcases List.mem_append.mp hc with hc | hc
      · exact digit_not_ws (hd2 c hc)
      · rw [List.mem_singleton.mp hc]
        exact isDateSep_not_ws hs2
  · exact digit_not_ws (hd3 c hc)

/-- A matched date re-matches itself. -/
theorem matchDateAt_idem {cs m : List Char} (h : matchDateAt cs = some m) :
    matchDateAt m = some m := by
  obtain ⟨r1, s1, r2, s2, r3, hm, hd1, hl1, hs1, hd2, hl2, hs2, hd3, hl3, hl4⟩ :=
    matchDateAt_spec h
  have hform : (r1 ++ [s1]) ++ (r2 ++ [s2]) ++ r3 = r1 ++ s1 :: (r2 ++ s2 :: r3) := by
    simp
  rw [hm, hform, matchDateAt_mk r1 r2 r3 s1 s2 hd1 hl1 hs1 hd2 hl2 hs2 hd3 hl3 hl4, hform]

/-- A matched date is nonempty. -/
theorem matchDate_ne_nil {cs m : List Char} (h : matchDateAt cs = some m) : m ≠ [] := by
  obtain ⟨r1, s1, r2, s2, r3, hm, _, hl1, _⟩ := matchDateAt_spec h
  subst hm
  intro hemp
  simp at hemp

/-- Extraction at a self-matching nonempty date returns it. -/
theorem extractDateL_self {m : List Char} (hne : m ≠ []) (h : matchDateAt m = some m) :
    extractDateL m = some m := by
  rcases m with _ | ⟨c, cs⟩
  · exact absurd rfl hne
  · rw [extractDateL_cons, h]

/-- The expiry branch is idempotent. -/
theorem postExpiryL_idem (cs : List Char) : postExpiryL (postExpiryL cs) = postExpiryL cs := by
  have hn := normSpaced_collapse_strip cs
  rcases hx : extractDateL (collapseL (stripL cs)) with _ | d
  · have h1 : postExpiryL cs = collapseL (stripL cs) := by rw [postExpiryL_eq, hx]
    rw [h1, postExpiryL_eq, strip_collapse_id hn, hx]
  · have h1 : postExpiryL cs = d := by rw [postExpiryL_eq, hx]
    obtain ⟨cs2, hmatch⟩ := extractDateL_spec _ hx
    have hnoWS := matchDate_noWS hmatch
    have hself := matchDateAt_idem hmatch
    have hne := matchDate_ne_nil hmatch
    rw [h1, postExpiryL_eq, strip_collapse_id (normSpaced_of_noWS d hnoWS),
      extractDateL_self hne hself]

/-- A second postprocess application through a branch body is absorbed. -/
theorem postprocess_second (rt : Option String) (f : List Char → List Char)
    (hrt : ∀ t : String, t ≠ "" → postprocess t rt = ⟨f t.data⟩)
    (hf : ∀ cs, f (f cs) = f cs) (text : String) (ht : text ≠ "") :
    postprocess (postprocess text rt) rt = postprocess text rt := by
  rw [hrt text ht]
  by_cases hw : f text.data = []
  · rw [hw]
    unfold postprocess
    rw [if_pos (show (⟨([] : List Char)⟩ : String) = "" from rfl)]
  · have hne : (⟨f text.data⟩ : String) ≠ "" := by
      intro hq
      exact hw (congrArg String.data hq)
    rw [hrt ⟨f text.data⟩ hne]
    show (⟨f (f text.data)⟩ : String) = ⟨f text.data⟩
    rw [hf text.data]

/-- C5: the postprocessor is idempotent and total: for every text and every
region type, applying `postprocess` twice agrees with applying it once, and
the empty string maps to the empty string. -/
theorem C5_postprocess_idempotent (text : String) (region_type : Option String) :
    postprocess (postprocess text region_type) region_type = postprocess text region_type ∧
    postprocess "" region_type = "" := by
  have hempty : postprocess "" region_type = "" := by
    unfold postprocess
    rw [if_pos rfl]
  refine ⟨?_, hempty⟩
  by_cases ht : text = ""
  · rw [ht, hempty, hempty]
  by_cases h1 : region_type = some "store"
  · subst h1
    exact postprocess_second _ postStoreL
      (fun t htn => by unfold postprocess; rw [if_neg htn, if_pos rfl])
      postStoreL_idem text ht
  by_cases h2 : region_type = some "code"
  · subst h2
    exact postprocess_second _ postCodeL
      (fun t htn => by
        unfold postprocess
        rw [if_neg htn, if_neg (by decide), if_pos rfl])
      postCodeL_idem text ht
  by_cases h3 : region_type = some "amount"
  · subst h3
    exact postprocess_second _ postAmountL
      (fun t htn => by
        unfold postprocess
        rw [if_neg htn, if_neg (by decide), if_neg (by decide), if_pos rfl])
      postAmountL_idem text ht
  by_cases h4 : region_type = some "expiry"
  · subst h4
    exact postprocess_second _ postExpiryL
      (fun t htn => by
        unfold postprocess
        rw [if_neg htn, if_neg (by decide), if_neg (by decide), if_neg (by decide), if_pos rfl])
      postExpiryL_idem text ht
  by_cases h5 : region_type = some "description"
  · subst h5
    exact postprocess_second _ postDescriptionL
      (fun t htn => by
        unfold postprocess
        rw [if_neg htn, if_neg (by decide), if_neg (by decide), if_neg (by decide),
          if_neg (by decide), if_pos rfl])
      postDescriptionL_idem text ht
  · have hdef : ∀ t : String, t ≠ "" → postprocess t region_type = t := by
      intro t htn
      unfold postprocess
      rw [if_neg htn, if_neg h1, if_neg h2, if_neg h3, if_neg h4, if_neg h5]
    rw [hdef text ht, hdef text ht]

end Coupon
